import Mathlib

/-!
Verification of the job-queue manager of the clarity-automation repository
(`src/src/index.js`, queue-manager module).

The JavaScript source is shallowly embedded: the module's mutable state
(`jobQueue`, `currentJob`, `isProcessing`, `allJobs`, `jobIdCounter`, `stats`)
becomes an explicit state record, and the single-threaded async control flow of
`processNextJob` becomes a step function driven by external actions (a job
submission, the settling of a processing callback, the settling of a webhook
delivery).  Each step is one synchronous segment of JavaScript execution
between `await` suspension points.  Wall-clock readings are modelled by a
natural-number clock advanced by an environment-chosen amount at each step.
-/

namespace ClarityQueue

/-! ## Decimal rendering, from `generateJobId` (src/src/index.js lines 98-102)

`generateJobId` builds `"job_" + timestamp + "_" + String(++jobIdCounter).padStart(3, '0')`
where `timestamp = now.toISOString().replace(/[-:T]/g, '').slice(0, 14)` is the
14-digit `YYYYMMDDHHMMSS` rendering of the current second.  We model the clock
reading directly as that 14-digit number. -/

/-- Fuel-driven accumulator loop producing the decimal digit characters of `n`,
most significant first.  Fuel `n+1` always suffices. -/
def natCharsAux : Nat → Nat → List Char → List Char
  | 0, _, acc => acc
  | fuel+1, n, acc =>
      if n < 10 then Nat.digitChar n :: acc
      else natCharsAux fuel (n / 10) (Nat.digitChar (n % 10) :: acc)

/-- Decimal digit characters of `n`, most significant first: the JavaScript
rendering `String(n)` of a natural number. -/
def natChars (n : Nat) : List Char := natCharsAux (n + 1) n []

theorem natCharsAux_acc (fuel : Nat) : ∀ n acc, n < fuel →
    natCharsAux fuel n acc = natCharsAux fuel n [] ++ acc := by
  induction fuel with
  | zero => intro n acc h; omega
  | succ fuel ih =>
    intro n acc h
    by_cases h10 : n < 10
    · simp [natCharsAux, h10]
    · have hdiv : n / 10 < fuel := by
        have : n / 10 < n := Nat.div_lt_self (by omega) (by omega)
        omega
      simp only [natCharsAux, if_neg h10]
      rw [ih (n / 10) (Nat.digitChar (n % 10) :: acc) hdiv,
          ih (n / 10) [Nat.digitChar (n % 10)] hdiv]
      simp

theorem natCharsAux_fuel : ∀ n f₁ f₂, n < f₁ → n < f₂ →
    natCharsAux f₁ n [] = natCharsAux f₂ n [] := by
  intro n
  induction n using Nat.strong_induction_on with
  | _ n ih =>
    intro f₁ f₂ h₁ h₂
    match f₁, f₂ with
    | f₁ + 1, f₂ + 1 =>
      by_cases h10 : n < 10
      · simp [natCharsAux, h10]
      · have hlt : n / 10 < n := Nat.div_lt_self (by omega) (by omega)
        simp only [natCharsAux, if_neg h10]
        rw [natCharsAux_acc f₁ (n / 10) _ (by omega),
            natCharsAux_acc f₂ (n / 10) _ (by omega),
            ih (n / 10) hlt f₁ f₂ (by omega) (by omega)]

/-- Recursive characterization of `natChars`: peel off the least significant
digit, as `String(n)` does positionally. -/
theorem natChars_eq (n : Nat) : natChars n =
    if n < 10 then [Nat.digitChar n] else natChars (n / 10) ++ [Nat.digitChar (n % 10)] := by
  by_cases h10 : n < 10
  · simp [natChars, natCharsAux, h10]
  · have hlt : n / 10 < n := Nat.div_lt_self (by omega) (by omega)
    rw [if_neg h10]
    show natCharsAux (n + 1) n [] = _
    have hstep : natCharsAux (n + 1) n [] = natCharsAux n (n / 10) [Nat.digitChar (n % 10)] := by
      simp [natCharsAux, h10]
    rw [hstep, natCharsAux_acc n (n / 10) _ (by omega),
        natCharsAux_fuel (n / 10) n (n / 10 + 1) (by omega) (by omega)]
    rfl

theorem natChars_ne_nil (n : Nat) : natChars n ≠ [] := by
  rw [natChars_eq]
  by_cases h10 : n < 10 <;> simp [h10]

/-- Exactly `w` big-endian decimal digit characters of `n`; for `n < 10 ^ w`
this is the zero-padded `w`-digit rendering. -/
def padChars : Nat → Nat → List Char
  | 0, _ => []
  | w+1, n => Nat.digitChar (n / 10 ^ w) :: padChars w (n % 10 ^ w)

theorem length_padChars (w : Nat) : ∀ n, (padChars w n).length = w := by
  induction w with
  | zero => intro n; rfl
  | succ w ih => intro n; simp [padChars, ih]

/-- Model of JavaScript `String(c).padStart(3, '0')`: left-pad the decimal
digits of `c` with zeros up to length 3 (longer renderings are unchanged). -/
def padStartThree (c : Nat) : List Char :=
  List.replicate (3 - (natChars c).length) '0' ++ natChars c

/-- The counter part of a job id.  Extensionally equal to `padStartThree`
(proved in `padCounter_eq_padStartThree`); this form exposes the padded /
unpadded case split directly. -/
def padCounter (c : Nat) : List Char :=
  if c < 1000 then padChars 3 c else natChars c

theorem digitChar_injOn : ∀ a < 10, ∀ b < 10, Nat.digitChar a = Nat.digitChar b → a = b := by
  decide

theorem digitChar_mono : ∀ a < 10, ∀ b < 10, a < b → Nat.digitChar a < Nat.digitChar b := by
  decide

theorem length_natChars_ge (k : Nat) : ∀ n, 10 ^ k ≤ n → k + 1 ≤ (natChars n).length := by
  induction k with
  | zero =>
    intro n _
    have := natChars_ne_nil n
    cases h : natChars n with
    | nil => exact absurd h this
    | cons a l => simp
  | succ k ih =>
    intro n hn
    have h10 : ¬ n < 10 := by
      have : (10:Nat) ≤ 10 ^ (k+1) := by
        calc (10:Nat) = 10 ^ 1 := by norm_num
        _ ≤ 10 ^ (k+1) := Nat.pow_le_pow_right (by omega) (by omega)
      omega
    rw [natChars_eq, if_neg h10]
    have hdiv : 10 ^ k ≤ n / 10 := by
      rw [Nat.le_div_iff_mul_le (by omega)]
      calc 10 ^ k * 10 = 10 ^ (k+1) := by ring
      _ ≤ n := hn
    have := ih (n / 10) hdiv
    simp only [List.length_append, List.length_cons, List.length_nil]
    omega

theorem length_natChars_le (w : Nat) : ∀ n, 0 < w → n < 10 ^ w → (natChars n).length ≤ w := by
  induction w with
  | zero => intro n h; omega
  | succ w ih =>
    intro n _ hn
    by_cases h10 : n < 10
    · rw [natChars_eq, if_pos h10]; simp
    · rw [natChars_eq, if_neg h10]
      have hw : 0 < w := by
        by_contra hw
        have : w = 0 := by omega
        subst this
        simp at hn
        omega
      have hdiv : n / 10 < 10 ^ w := by
        rw [Nat.div_lt_iff_lt_mul (by omega)]
        calc n < 10 ^ (w+1) := hn
        _ = 10 ^ w * 10 := by ring
      have := ih (n / 10) hw hdiv
      simp only [List.length_append, List.length_cons, List.length_nil]
      omega

theorem natChars_inj : ∀ n m, natChars n = natChars m → n = m := by
  intro n
  induction n using Nat.strong_induction_on with
  | _ n ih =>
    intro m h
    by_cases hn : n < 10 <;> by_cases hm : m < 10
    · rw [natChars_eq n, if_pos hn, natChars_eq m, if_pos hm] at h
      exact digitChar_injOn n hn m hm (by injection h)
    · rw [natChars_eq n, if_pos hn, natChars_eq m, if_neg hm] at h
      have := congrArg List.length h
      have hne := natChars_ne_nil (m / 10)
      cases hmm : natChars (m / 10) with
      | nil => exact absurd hmm hne
      | cons a l => rw [hmm] at this; simp at this
    · rw [natChars_eq n, if_neg hn, natChars_eq m, if_pos hm] at h
      have := congrArg List.length h
      have hne := natChars_ne_nil (n / 10)
      cases hnn : natChars (n / 10) with
      | nil => exact absurd hnn hne
      | cons a l => rw [hnn] at this; simp at this
    · rw [natChars_eq n, if_neg hn, natChars_eq m, if_neg hm] at h
      have hlen : ([Nat.digitChar (n % 10)] : List Char).length = ([Nat.digitChar (m % 10)] : List Char).length := by simp
      obtain ⟨h1, h2⟩ := List.append_inj' h hlen
      have hdiv : n / 10 = m / 10 := ih (n / 10) (Nat.div_lt_self (by omega) (by omega)) (m / 10) h1
      have hmod : n % 10 = m % 10 := by
        have := digitChar_injOn (n % 10) (Nat.mod_lt n (by omega)) (m % 10) (Nat.mod_lt m (by omega))
        exact this (by injection h2)
      omega

theorem padChars_inj (w : Nat) : ∀ n m, n < 10 ^ w → m < 10 ^ w →
    padChars w n = padChars w m → n = m := by
  induction w with
  | zero => intro n m hn hm _; simp at hn hm; omega
  | succ w ih =>
    intro n m hn hm h
    simp only [padChars, List.cons.injEq] at h
    have hnd : n / 10 ^ w < 10 := by
      rw [Nat.div_lt_iff_lt_mul (Nat.pos_pow_of_pos w (by omega))]
      calc n < 10 ^ (w+1) := hn
      _ = 10 * 10 ^ w := by ring
    have hmd : m / 10 ^ w < 10 := by
      rw [Nat.div_lt_iff_lt_mul (Nat.pos_pow_of_pos w (by omega))]
      calc m < 10 ^ (w+1) := hm
      _ = 10 * 10 ^ w := by ring
    have hdiv := digitChar_injOn _ hnd _ hmd h.1
    have hmod := ih (n % 10 ^ w) (m % 10 ^ w)
      (Nat.mod_lt n (Nat.pos_pow_of_pos w (by omega)))
      (Nat.mod_lt m (Nat.pos_pow_of_pos w (by omega))) h.2
    have h1 := Nat.div_add_mod n (10 ^ w)
    have h2 := Nat.div_add_mod m (10 ^ w)
    rw [hdiv] at h1
    omega

/-- Strict lexicographic monotonicity of the fixed-width rendering. -/
theorem padChars_lt (w : Nat) : ∀ n m, n < 10 ^ w → m < 10 ^ w → n < m →
    List.Lex (· < ·) (padChars w n) (padChars w m) := by
  induction w with
  | zero => intro n m hn hm h; simp at hn hm; omega
  | succ w ih =>
    intro n m hn hm h
    have hp : 0 < 10 ^ w := Nat.pos_pow_of_pos w (by omega)
    have hnd : n / 10 ^ w < 10 := by
      rw [Nat.div_lt_iff_lt_mul hp]
      calc n < 10 ^ (w+1) := hn
      _ = 10 * 10 ^ w := by ring
    have hmd : m / 10 ^ w < 10 := by
      rw [Nat.div_lt_iff_lt_mul hp]
      calc m < 10 ^ (w+1) := hm
      _ = 10 * 10 ^ w := by ring
    have hle : n / 10 ^ w ≤ m / 10 ^ w := Nat.div_le_div_right (by omega)
    rcases Nat.lt_or_ge (n / 10 ^ w) (m / 10 ^ w) with hlt | hge
    · exact List.Lex.rel (digitChar_mono _ hnd _ hmd hlt)
    · have heq : n / 10 ^ w = m / 10 ^ w := by omega
      have hmodlt : n % 10 ^ w < m % 10 ^ w := by
        have h1 := Nat.div_add_mod n (10 ^ w)
        have h2 := Nat.div_add_mod m (10 ^ w)
        rw [heq] at h1
        omega
      simp only [padChars, heq]
      exact List.Lex.cons (ih _ _ (Nat.mod_lt n hp) (Nat.mod_lt m hp) hmodlt)

/-- Appending after a common prefix preserves strict lexicographic order. -/
theorem lex_append_left (l : List Char) : ∀ xs ys : List Char,
    List.Lex (· < ·) xs ys → List.Lex (· < ·) (l ++ xs) (l ++ ys) := by
  induction l with
  | nil => intro xs ys h; exact h
  | cons a l ih =>
    intro xs ys h
    exact List.Lex.cons (ih xs ys h)

/-- A strict lexicographic comparison already decided on equal-length prefixes
is unaffected by suffixes. -/
theorem lex_append_of_length_eq : ∀ xs ys r₁ r₂ : List Char,
    xs.length = ys.length → List.Lex (· < ·) xs ys → List.Lex (· < ·) (xs ++ r₁) (ys ++ r₂) := by
  intro xs ys r₁ r₂ hlen h
  induction h with
  | nil => simp at hlen
  | cons h ih =>
    simp only [List.length_cons, Nat.succ.injEq] at hlen
    exact List.Lex.cons (ih hlen)
  | rel hab => exact List.Lex.rel hab

theorem padChars_three (c : Nat) :
    padChars 3 c = [Nat.digitChar (c / 100), Nat.digitChar (c / 10 % 10), Nat.digitChar (c % 10)] := by
  have e1 : (10:Nat) ^ 2 = 100 := by norm_num
  have e2 : (10:Nat) ^ 1 = 10 := by norm_num
  have e3 : (10:Nat) ^ 0 = 1 := by norm_num
  simp only [padChars, e1, e2, e3]
  have f1 : c % 100 / 10 = c / 10 % 10 := by omega
  have f2 : c % 100 % 10 / 1 = c % 10 := by omega
  rw [f1, f2]

theorem padCounter_eq_padStartThree (c : Nat) : padCounter c = padStartThree c := by
  unfold padCounter padStartThree
  by_cases h : c < 1000
  · rw [if_pos h, padChars_three]
    by_cases h10 : c < 10
    · have h1 : natChars c = [Nat.digitChar c] := by rw [natChars_eq, if_pos h10]
      have e1 : c / 100 = 0 := by omega
      have e2 : c / 10 % 10 = 0 := by omega
      have e3 : c % 10 = c := by omega
      rw [h1, e1, e2, e3]
      simp only [List.length_cons, List.length_nil]
      rfl
    · by_cases h100 : c < 100
      · have hd : c / 10 < 10 := by omega
        have h1 : natChars c = [Nat.digitChar (c / 10), Nat.digitChar (c % 10)] := by
          rw [natChars_eq c, if_neg h10, natChars_eq (c / 10), if_pos hd]
          rfl
        have e1 : c / 100 = 0 := by omega
        have e2 : c / 10 % 10 = c / 10 := by omega
        rw [h1, e1, e2]
        simp only [List.length_cons, List.length_nil]
        rfl
      · have hd : ¬ c / 10 < 10 := by omega
        have hdd : c / 10 / 10 < 10 := by omega
        have h1 : natChars c =
            [Nat.digitChar (c / 10 / 10), Nat.digitChar (c / 10 % 10), Nat.digitChar (c % 10)] := by
          rw [natChars_eq c, if_neg h10, natChars_eq (c / 10), if_neg hd,
              natChars_eq (c / 10 / 10), if_pos hdd]
          rfl
        have e1 : c / 10 / 10 = c / 100 := by omega
        rw [h1, e1]
        simp only [List.length_cons, List.length_nil]
        rfl
  · rw [if_neg h]
    have h4 : 4 ≤ (natChars c).length := by
      have := length_natChars_ge 3 c (by norm_num; omega)
      omega
    have : 3 - (natChars c).length = 0 := by omega
    rw [this]
    rfl

/-! ## Job id generation (`generateJobId`, src/src/index.js lines 98-102) -/

/-- Characters of a generated job id: literal prefix, 14-digit to-the-second
timestamp, separator, zero-padded counter. -/
def jobIdChars (ts ctr : Nat) : List Char :=
  'j' :: 'o' :: 'b' :: '_' :: (padChars 14 ts ++ '_' :: padCounter ctr)

/-- Model of `generateJobId`: `ts` is the 14-digit `YYYYMMDDHHMMSS` clock
reading (seconds resolution), `ctr` the pre-incremented, process-lifetime
counter `jobIdCounter`. -/
def generateJobId (ts ctr : Nat) : String := String.mk (jobIdChars ts ctr)

theorem padCounter_inj (c₁ c₂ : Nat) (h : padCounter c₁ = padCounter c₂) : c₁ = c₂ := by
  unfold padCounter at h
  by_cases h₁ : c₁ < 1000 <;> by_cases h₂ : c₂ < 1000
  · rw [if_pos h₁, if_pos h₂] at h
    exact padChars_inj 3 c₁ c₂ (by norm_num; omega) (by norm_num; omega) h
  · rw [if_pos h₁, if_neg h₂] at h
    have hl := congrArg List.length h
    rw [length_padChars] at hl
    have := length_natChars_ge 3 c₂ (by norm_num; omega)
    omega
  · rw [if_neg h₁, if_pos h₂] at h
    have hl := congrArg List.length h
    rw [length_padChars] at hl
    have := length_natChars_ge 3 c₁ (by norm_num; omega)
    omega
  · rw [if_neg h₁, if_neg h₂] at h
    exact natChars_inj c₁ c₂ h

theorem generateJobId_inj (ts₁ c₁ ts₂ c₂ : Nat) (h₁ : ts₁ < 10 ^ 14) (h₂ : ts₂ < 10 ^ 14)
    (h : generateJobId ts₁ c₁ = generateJobId ts₂ c₂) : ts₁ = ts₂ ∧ c₁ = c₂ := by
  unfold generateJobId at h
  have h' : jobIdChars ts₁ c₁ = jobIdChars ts₂ c₂ := congrArg String.data h
  unfold jobIdChars at h'
  simp only [List.cons.injEq, true_and] at h'
  have hlen : (padChars 14 ts₁).length = (padChars 14 ts₂).length := by
    rw [length_padChars, length_padChars]
  obtain ⟨ha, hb⟩ := List.append_inj h' hlen
  refine ⟨padChars_inj 14 ts₁ ts₂ h₁ h₂ ha, ?_⟩
  simp only [List.cons.injEq, true_and] at hb
  exact padCounter_inj c₁ c₂ hb

theorem generateJobId_lt (ts₁ c₁ ts₂ c₂ : Nat) (h₁ : ts₁ < 10 ^ 14) (h₂ : ts₂ < 10 ^ 14)
    (hts : ts₁ ≤ ts₂) (hc : c₁ < c₂) (hcase : ts₁ < ts₂ ∨ c₂ < 1000) :
    generateJobId ts₁ c₁ < generateJobId ts₂ c₂ := by
  rw [String.lt_iff_toList_lt]
  show List.Lex (· < ·) (jobIdChars ts₁ c₁) (jobIdChars ts₂ c₂)
  unfold jobIdChars
  rcases Nat.lt_or_ge ts₁ ts₂ with hlt | hge
  · have hpre : ∀ ts c, 'j' :: 'o' :: 'b' :: '_' :: (padChars 14 ts ++ '_' :: padCounter c) =
        ['j', 'o', 'b', '_'] ++ (padChars 14 ts ++ '_' :: padCounter c) := by
      intro ts c; rfl
    rw [hpre, hpre]
    apply lex_append_left
    exact lex_append_of_length_eq _ _ _ _
      (by rw [length_padChars, length_padChars]) (padChars_lt 14 ts₁ ts₂ h₁ h₂ hlt)
  · have hts_eq : ts₁ = ts₂ := by omega
    have hsmall : c₂ < 1000 := by
      rcases hcase with h | h
      · omega
      · exact h
    subst hts_eq
    have hc₁ : c₁ < 1000 := by omega
    have hpre : ∀ c, 'j' :: 'o' :: 'b' :: '_' :: (padChars 14 ts₁ ++ '_' :: padCounter c) =
        ('j' :: 'o' :: 'b' :: '_' :: padChars 14 ts₁ ++ ['_']) ++ padCounter c := by
      intro c; simp
    rw [hpre, hpre]
    apply lex_append_left
    rw [show padCounter c₁ = padChars 3 c₁ from if_pos hc₁,
        show padCounter c₂ = padChars 3 c₂ from if_pos hsmall]
    exact padChars_lt 3 c₁ c₂ (by norm_num; omega) (by norm_num; omega) hc

/-- C9, counterexample.  Two jobs created within the same second with counter
values 999 and 1000 — reachable in one process run, since the counter is
process-lifetime and increments on every creation while the timestamp has
only to-the-second resolution — yield ids that compare in the wrong order:
the later job's id is strictly below the earlier one's, because
`padStart(3, '0')` stops padding once the counter has four digits.  This
refutes "for every two jobs, the earlier-created job's id string compares
less than the later one's". -/
theorem generateJobId_sortable_counterexample :
    ¬ (generateJobId 20250123143022 999 < generateJobId 20250123143022 1000) ∧
    generateJobId 20250123143022 1000 < generateJobId 20250123143022 999 ∧
    generateJobId 20250123143022 999 = "job_20250123143022_999" ∧
    generateJobId 20250123143022 1000 = "job_20250123143022_1000" := by
  refine ⟨?_, ?_, by decide, by decide⟩
  · rw [String.lt_iff_toList_lt]; decide
  · rw [String.lt_iff_toList_lt]; decide

/-- C9, amended.  Job id generation — a 14-digit to-the-second timestamp
concatenated with the zero-padded process-lifetime counter — yields ids that
are unique within a process run (distinct counter values give distinct ids,
whatever the clock readings), and sortable by creation order provided the
later counter still fits the three-digit padding or the two creations fall in
different seconds (the counterexample above shows sortability genuinely fails
when counters 999 and 1000 share a second). -/
theorem generateJobId_unique_and_sortable :
    (∀ ts₁ c₁ ts₂ c₂ : Nat, ts₁ < 10 ^ 14 → ts₂ < 10 ^ 14 → c₁ ≠ c₂ →
      generateJobId ts₁ c₁ ≠ generateJobId ts₂ c₂) ∧
    (∀ ts₁ c₁ ts₂ c₂ : Nat, ts₁ < 10 ^ 14 → ts₂ < 10 ^ 14 → ts₁ ≤ ts₂ → c₁ < c₂ →
      (ts₁ < ts₂ ∨ c₂ < 1000) → generateJobId ts₁ c₁ < generateJobId ts₂ c₂) := by
  constructor
  · intro ts₁ c₁ ts₂ c₂ h₁ h₂ hne h
    exact hne (generateJobId_inj ts₁ c₁ ts₂ c₂ h₁ h₂ h).2
  · exact fun ts₁ c₁ ts₂ c₂ h₁ h₂ hts hc hcase =>
      generateJobId_lt ts₁ c₁ ts₂ c₂ h₁ h₂ hts hc hcase

/-- Witness for the amended C9 theorem at concrete inputs: counters 1 and 2 in
the same second give distinct ids, and id order matches creation order both
within a second (counters below 1000) and across seconds. -/
theorem generateJobId_unique_and_sortable_witness :
    generateJobId 20250123143022 1 ≠ generateJobId 20250123143022 2 ∧
    generateJobId 20250123143022 1 < generateJobId 20250123143022 2 ∧
    generateJobId 20250123143022 999 < generateJobId 20250123143023 1000 := by
  refine ⟨?_, ?_, ?_⟩
  · exact generateJobId_unique_and_sortable.1 20250123143022 1 20250123143022 2
      (by norm_num) (by norm_num) (by norm_num)
  · exact generateJobId_unique_and_sortable.2 20250123143022 1 20250123143022 2
      (by norm_num) (by norm_num) (le_refl _) (by norm_num) (Or.inr (by norm_num))
  · exact generateJobId_unique_and_sortable.2 20250123143022 999 20250123143023 1000
      (by norm_num) (by norm_num) (by norm_num) (by norm_num) (Or.inl (by norm_num))

/-! ## Task results and the concurrency limiter
(`processRecordingsInJob`, src/src/index.js lines 362-387)

The JavaScript builds one p-limit guarded promise per recording with
`recordings.map((recording, index) => limit(async () => ...))` and returns
`Promise.all(promises)`.  Each unit's body calls
`processFunc(recording, index, recordings.length)` and converts a thrown
failure into `{success:false, sessionId, error}`. -/

/-- Outcome of one task (recording) within a job.  Caller-defined payload
fields (storage location etc.) are opaque to the scheduler and omitted. -/
structure TaskResult where
  success : Bool
  sessionId : String
  error : Option String
deriving DecidableEq, Repr, Inhabited

/-- One recording handed to the limiter; fields other than `sessionId` are
opaque to the queue manager. -/
structure Recording where
  sessionId : String
deriving DecidableEq, Repr, Inhabited

/-- The guarded body of one unit of work in `processRecordingsInJob`: run
`processFunc(recording, index, total)`; a rejection is caught and converted
into a failed `TaskResult` carrying the error message. -/
def runUnit (processFunc : Recording → Nat → Nat → Except String TaskResult)
    (total : Nat) (recording : Recording) (index : Nat) : TaskResult :=
  match processFunc recording index total with
  | .ok result => result
  | .error msg => { success := false, sessionId := recording.sessionId, error := some msg }

/-- Denotation of `processRecordingsInJob`: `Promise.all` assembles the unit
outcomes positionally, so the value returned is the input-ordered list of
guarded unit results. -/
def processRecordingsInJob (recordings : List Recording)
    (processFunc : Recording → Nat → Nat → Except String TaskResult) : List TaskResult :=
  recordings.mapIdx fun index recording => runUnit processFunc recordings.length recording index

/-- State of the p-limit executor: `next` counts units started so far (p-limit
dispatches its queue FIFO, so the started units are exactly indices below
`next`), `active` the indices in flight, `finished` the settled results in
completion order. -/
structure LimiterState where
  next : Nat
  active : List Nat
  finished : List (Nat × TaskResult)
deriving DecidableEq, Repr

/-- Initial limiter state: p-limit starts the first `min k n` units
immediately (`k` = maxConcurrent, `n` = number of recordings); the rest wait
in its FIFO queue. -/
def limiterInit (k n : Nat) : LimiterState :=
  { next := min k n, active := List.range (min k n), finished := [] }

/-- One completion event of the limiter.  The environment picks position `j`
among the units in flight; that unit settles with its guarded body's result,
and p-limit immediately starts the next queued unit, if any. -/
def limiterStep (processFunc : Recording → Nat → Nat → Except String TaskResult)
    (recordings : List Recording) (s : LimiterState) (j : Nat) : LimiterState :=
  if h : j < s.active.length then
    if s.next < recordings.length then
      { next := s.next + 1, active := s.active.eraseIdx j ++ [s.next],
        finished := s.finished ++ [(s.active.get ⟨j, h⟩,
          runUnit processFunc recordings.length
            (recordings.getD (s.active.get ⟨j, h⟩) default) (s.active.get ⟨j, h⟩))] }
    else
      { next := s.next, active := s.active.eraseIdx j,
        finished := s.finished ++ [(s.active.get ⟨j, h⟩,
          runUnit processFunc recordings.length
            (recordings.getD (s.active.get ⟨j, h⟩) default) (s.active.get ⟨j, h⟩))] }
  else s

/-- A completion-order schedule is a list of in-flight positions. -/
def limiterRun (processFunc : Recording → Nat → Nat → Except String TaskResult)
    (recordings : List Recording) (k : Nat) (choices : List Nat) : LimiterState :=
  choices.foldl (limiterStep processFunc recordings) (limiterInit k recordings.length)

/-- The array `Promise.all` resolves with: slot `i` holds the settled result
of unit `i`. -/
def limiterOutput (n : Nat) (s : LimiterState) : List TaskResult :=
  (List.range n).map fun i => (s.finished.lookup i).getD default

/-- Invariant of the limiter executor. -/
structure LimiterInv (processFunc : Recording → Nat → Nat → Except String TaskResult)
    (recordings : List Recording) (k : Nat) (s : LimiterState) : Prop where
  next_le : s.next ≤ recordings.length
  active_len : s.active.length ≤ k
  active_lt : ∀ i ∈ s.active, i < s.next
  fin_lt : ∀ p ∈ s.finished, p.1 < s.next
  nodup : (s.active ++ s.finished.map Prod.fst).Nodup
  covered : ∀ i, i < s.next → i ∈ s.active ∨ i ∈ s.finished.map Prod.fst
  values : ∀ p ∈ s.finished,
    p.2 = runUnit processFunc recordings.length (recordings.getD p.1 default) p.1
  drained : s.active = [] → s.next = recordings.length

theorem get_cons_eraseIdx_perm : ∀ (l : List Nat) (j : Nat) (h : j < l.length),
    (l.get ⟨j, h⟩ :: l.eraseIdx j).Perm l := by
  intro l
  induction l with
  | nil => intro j h; simp at h
  | cons a t ih =>
    intro j h
    match j with
    | 0 => exact List.Perm.refl _
    | j+1 =>
      have hj : j < t.length := by simpa using h
      have step : ((a :: t).get ⟨j+1, h⟩ :: (a :: t).eraseIdx (j+1)) =
          t.get ⟨j, hj⟩ :: a :: t.eraseIdx j := rfl
      rw [step]
      exact (List.Perm.swap a (t.get ⟨j, hj⟩) (t.eraseIdx j)).trans ((ih j hj).cons a)

theorem limiterInv_init (processFunc : Recording → Nat → Nat → Except String TaskResult)
    (recordings : List Recording) (k : Nat) (hk : 1 ≤ k) :
    LimiterInv processFunc recordings k (limiterInit k recordings.length) := by
  refine ⟨?_, ?_, ?_, ?_, ?_, ?_, ?_, ?_⟩
  · exact Nat.min_le_right _ _
  · simp [limiterInit]
  · intro i hi
    simpa [limiterInit, List.mem_range] using hi
  · intro p hp
    simp [limiterInit] at hp
  · simpa [limiterInit] using List.nodup_range _
  · intro i hi
    left
    simp only [limiterInit] at hi ⊢
    exact List.mem_range.mpr hi
  · intro p hp
    simp [limiterInit] at hp
  · intro h
    simp only [limiterInit, List.range_eq_nil] at h ⊢
    omega

theorem limiterInv_step (processFunc : Recording → Nat → Nat → Except String TaskResult)
    (recordings : List Recording) (k : Nat) (s : LimiterState) (j : Nat)
    (h : LimiterInv processFunc recordings k s) :
    LimiterInv processFunc recordings k (limiterStep processFunc recordings s j) := by
  unfold limiterStep
  by_cases hj : j < s.active.length
  · rw [dif_pos hj]
    have himem : s.active.get ⟨j, hj⟩ ∈ s.active := s.active.get_mem _ _
    have hperm := get_cons_eraseIdx_perm s.active j hj
    have hilt : s.active.get ⟨j, hj⟩ < s.next := h.active_lt _ himem
    have hmem_split : ∀ i, i ∈ s.active →
        i = s.active.get ⟨j, hj⟩ ∨ i ∈ s.active.eraseIdx j := by
      intro i hi
      have := hperm.mem_iff.mpr hi
      simpa using this
    have herasesub : ∀ i, i ∈ s.active.eraseIdx j → i ∈ s.active := by
      intro i hi
      exact (s.active.eraseIdx_sublist j).mem hi
    have hcore : (s.active.eraseIdx j ++
        (s.finished.map Prod.fst ++ [s.active.get ⟨j, hj⟩])).Perm
        (s.active ++ s.finished.map Prod.fst) := by
      have p1 : (s.finished.map Prod.fst ++ [s.active.get ⟨j, hj⟩]).Perm
          (s.active.get ⟨j, hj⟩ :: s.finished.map Prod.fst) := by
        simpa only [List.append_nil] using
          (@List.perm_middle Nat (s.active.get ⟨j, hj⟩) (s.finished.map Prod.fst) [])
      have p2 := List.Perm.append_left (s.active.eraseIdx j) p1
      have p3 : (s.active.eraseIdx j ++
          s.active.get ⟨j, hj⟩ :: s.finished.map Prod.fst).Perm
          (s.active.get ⟨j, hj⟩ :: (s.active.eraseIdx j ++ s.finished.map Prod.fst)) :=
        List.perm_middle
      have p4 : ((s.active.get ⟨j, hj⟩ :: s.active.eraseIdx j) ++
          s.finished.map Prod.fst).Perm (s.active ++ s.finished.map Prod.fst) :=
        List.Perm.append_right _ hperm
      exact p2.trans (p3.trans p4)
    by_cases hn : s.next < recordings.length
    · rw [if_pos hn]
      refine ⟨?_, ?_, ?_, ?_, ?_, ?_, ?_, ?_⟩
      all_goals dsimp only
      · omega
      · have := h.active_len
        rw [List.length_append, List.length_eraseIdx, if_pos hj]
        simp only [List.length_cons, List.length_nil]
        omega
      · intro i hi
        rcases List.mem_append.mp hi with hi | hi
        · exact lt_trans (h.active_lt i (herasesub i hi)) (by omega)
        · simp at hi
          omega
      · intro p hp
        rcases List.mem_append.mp hp with hp | hp
        · exact lt_trans (h.fin_lt p hp) (by omega)
        · simp at hp
          subst hp
          exact Nat.lt_succ_of_lt (h.active_lt _ (List.getElem_mem hj))
      · rw [List.map_append]
        have hG : ((s.active.eraseIdx j ++ [s.next]) ++
            (s.finished.map Prod.fst ++ [(s.active.get ⟨j, hj⟩)])).Perm
            (s.next :: (s.active ++ s.finished.map Prod.fst)) := by
          have e1 : (s.active.eraseIdx j ++ [s.next]) ++
              (s.finished.map Prod.fst ++ [s.active.get ⟨j, hj⟩]) =
              s.active.eraseIdx j ++ s.next ::
                (s.finished.map Prod.fst ++ [s.active.get ⟨j, hj⟩]) := by simp
          rw [e1]
          exact List.perm_middle.trans (List.Perm.cons s.next hcore)
        simp only [List.map_cons, List.map_nil]
        refine (List.Perm.nodup_iff hG).mpr ?_
        · refine List.Nodup.cons ?_ h.nodup
          intro hmem
          rcases List.mem_append.mp hmem with hmem | hmem
          · exact absurd (h.active_lt _ hmem) (by omega)
          · obtain ⟨p, hp, he⟩ := List.mem_map.mp hmem
            have := h.fin_lt p hp
            omega
      · intro i hi
        rcases Nat.lt_or_ge i s.next with hlt | hge
        · rcases h.covered i hlt with hc | hc
          · rcases hmem_split i hc with he | he
            · right
              rw [List.map_append]
              simp [he]
            · left
              exact List.mem_append.mpr (Or.inl he)
          · right
            rw [List.map_append]
            exact List.mem_append.mpr (Or.inl hc)
        · have : i = s.next := by omega
          subst this
          left
          simp
      · intro p hp
        rcases List.mem_append.mp hp with hp | hp
        · exact h.values p hp
        · simp at hp
          subst hp
          simp [List.getD, List.get?_eq_getElem?]
      · intro hcontra
        simp at hcontra
    · rw [if_neg hn]
      have hnext_eq : s.next = recordings.length := by
        have := h.next_le
        omega
      refine ⟨?_, ?_, ?_, ?_, ?_, ?_, ?_, ?_⟩
      all_goals dsimp only
      · exact h.next_le
      · have := h.active_len
        rw [List.length_eraseIdx, if_pos hj]
        omega
      · intro i hi
        exact h.active_lt i (herasesub i hi)
      · intro p hp
        rcases List.mem_append.mp hp with hp | hp
        · exact h.fin_lt p hp
        · simp at hp
          subst hp
          exact h.active_lt _ (List.getElem_mem hj)
      · rw [List.map_append]
        simp only [List.map_cons, List.map_nil]
        refine (List.Perm.nodup_iff hcore).mpr ?_
        exact h.nodup
      · intro i hi
        rcases h.covered i hi with hc | hc
        · rcases hmem_split i hc with he | he
          · right
            rw [List.map_append]
            simp [he]
          · left
            exact he
        · right
          rw [List.map_append]
          exact List.mem_append.mpr (Or.inl hc)
      · intro p hp
        rcases List.mem_append.mp hp with hp | hp
        · exact h.values p hp
        · simp at hp
          subst hp
          simp [List.getD, List.get?_eq_getElem?]
      · intro he
        exact hnext_eq
  · rw [dif_neg hj]
    exact h

theorem limiterInv_run (processFunc : Recording → Nat → Nat → Except String TaskResult)
    (recordings : List Recording) (k : Nat) (hk : 1 ≤ k) (choices : List Nat) :
    LimiterInv processFunc recordings k (limiterRun processFunc recordings k choices) := by
  unfold limiterRun
  have main : ∀ (cs : List Nat) (s : LimiterState),
      LimiterInv processFunc recordings k s →
      LimiterInv processFunc recordings k (cs.foldl (limiterStep processFunc recordings) s) := by
    intro cs
    induction cs with
    | nil => intro s hs; exact hs
    | cons c cs ih =>
      intro s hs
      exact ih _ (limiterInv_step processFunc recordings k s c hs)
  exact main choices _ (limiterInv_init processFunc recordings k hk)


theorem lookup_eq_of_values (g : Nat → TaskResult) :
    ∀ (l : List (Nat × TaskResult)), (∀ p ∈ l, p.2 = g p.1) →
      ∀ i, i ∈ l.map Prod.fst → l.lookup i = some (g i) := by
  intro l
  induction l with
  | nil =>
    intro _ i hi
    simp at hi
  | cons q t ih =>
    intro hv i hi
    obtain ⟨a, b⟩ := q
    by_cases he : i = a
    · subst he
      have : b = g i := hv (i, b) (List.mem_cons_self _ _)
      simp [List.lookup, this]
    · have hne : (i == a) = false := beq_false_of_ne he
      simp only [List.lookup, hne]
      apply ih
      · intro p hp
        exact hv p (List.mem_cons_of_mem _ hp)
      · simp only [List.map_cons, List.mem_cons] at hi
        rcases hi with hi | hi
        · exact absurd hi he
        · exact hi

/-- The per-index characterization of the pure denotation. -/
theorem processRecordingsInJob_getElem (recordings : List Recording)
    (processFunc : Recording → Nat → Nat → Except String TaskResult) (i : Nat) :
    (processRecordingsInJob recordings processFunc)[i]? =
      Option.map (fun r => runUnit processFunc recordings.length r i) recordings[i]? := by
  unfold processRecordingsInJob
  rw [List.getElem?_mapIdx]

/-- The pure denotation as a map over index range (used to compare with the
executor's output assembly). -/
theorem processRecordingsInJob_eq_range_map (recordings : List Recording)
    (processFunc : Recording → Nat → Nat → Except String TaskResult) :
    processRecordingsInJob recordings processFunc =
      (List.range recordings.length).map
        (fun i => runUnit processFunc recordings.length (recordings.getD i default) i) := by
  apply List.ext_getElem?
  intro i
  rw [processRecordingsInJob_getElem, List.getElem?_map]
  by_cases hi : i < recordings.length
  · rw [List.getElem?_range hi]
    have : recordings[i]? = some (recordings.getD i default) := by
      rw [List.getD_eq_getElem?_getD]
      rw [List.getElem?_eq_getElem hi]
      rfl
    rw [this]
    rfl
  · have h1 : recordings[i]? = none := List.getElem?_eq_none (by omega)
    have h2 : (List.range recordings.length)[i]? = none := by
      apply List.getElem?_eq_none
      simpa using hi
    rw [h1, h2]
    rfl

/-- Any schedule that settles all units assembles exactly the input-ordered
pure results, no matter the completion order. -/
theorem limiterRun_complete_output
    (processFunc : Recording → Nat → Nat → Except String TaskResult)
    (recordings : List Recording) (k : Nat) (choices : List Nat) (hk : 1 ≤ k)
    (hdone : (limiterRun processFunc recordings k choices).finished.length =
      recordings.length) :
    limiterOutput recordings.length (limiterRun processFunc recordings k choices) =
      processRecordingsInJob recordings processFunc := by
  have hinv := limiterInv_run processFunc recordings k hk choices
  set s := limiterRun processFunc recordings k choices with hs
  have hkeysnodup : (s.finished.map Prod.fst).Nodup :=
    (List.nodup_append.mp hinv.nodup).2.1
  have hsub : (s.finished.map Prod.fst) ⊆ List.range recordings.length := by
    intro i hi
    rw [List.mem_range]
    obtain ⟨p, hp, he⟩ := List.mem_map.mp hi
    rw [← he]
    exact lt_of_lt_of_le (hinv.fin_lt p hp) hinv.next_le
  have hlen : (s.finished.map Prod.fst).length = recordings.length := by
    rw [List.length_map]
    exact hdone
  have hperm : (s.finished.map Prod.fst).Perm (List.range recordings.length) := by
    refine List.Subperm.perm_of_length_le (hkeysnodup.subperm hsub) ?_
    rw [hlen, List.length_range]
  have hmem : ∀ i, i < recordings.length → i ∈ s.finished.map Prod.fst := by
    intro i hi
    exact hperm.mem_iff.mpr (List.mem_range.mpr hi)
  rw [processRecordingsInJob_eq_range_map]
  unfold limiterOutput
  apply List.map_congr_left
  intro i hi
  rw [List.mem_range] at hi
  rw [lookup_eq_of_values
    (fun i => runUnit processFunc recordings.length (recordings.getD i default) i)
    s.finished hinv.values i (hmem i hi)]
  rfl

/-- C6.  The concurrency limiter (`processRecordingsInJob` over p-limit),
given an ordered list of `n` units of work and maximum concurrency `k ≥ 1`:
every execution schedule keeps at most `k` units in flight; every schedule
that settles all `n` units assembles exactly the input-ordered list of
per-unit outcomes, regardless of completion order; the returned list has
exactly `n` results with the `i`-th result being the `i`-th unit's own
outcome; and a unit's own failure is caught and converted into a result with
`success := false` and the error message rather than aborting the batch —
the other units' results are untouched by it. -/
theorem processRecordingsInJob_spec :
    (∀ (processFunc : Recording → Nat → Nat → Except String TaskResult)
        (recordings : List Recording) (k : Nat) (choices : List Nat), 1 ≤ k →
      (limiterRun processFunc recordings k choices).active.length ≤ k) ∧
    (∀ (processFunc : Recording → Nat → Nat → Except String TaskResult)
        (recordings : List Recording) (k : Nat) (choices : List Nat), 1 ≤ k →
      (limiterRun processFunc recordings k choices).finished.length =
          recordings.length →
        limiterOutput recordings.length (limiterRun processFunc recordings k choices) =
          processRecordingsInJob recordings processFunc) ∧
    (∀ (processFunc : Recording → Nat → Nat → Except String TaskResult)
        (recordings : List Recording),
      (processRecordingsInJob recordings processFunc).length = recordings.length) ∧
    (∀ (processFunc : Recording → Nat → Nat → Except String TaskResult)
        (recordings : List Recording) (i : Nat) (r : Recording),
      recordings[i]? = some r →
        (processRecordingsInJob recordings processFunc)[i]? =
          some (runUnit processFunc recordings.length r i)) ∧
    (∀ (processFunc : Recording → Nat → Nat → Except String TaskResult)
        (recordings : List Recording) (i : Nat) (r : Recording) (msg : String),
      recordings[i]? = some r → processFunc r i recordings.length = .error msg →
        (processRecordingsInJob recordings processFunc)[i]? =
          some { success := false, sessionId := r.sessionId, error := some msg }) := by
  refine ⟨?_, ?_, ?_, ?_, ?_⟩
  · intro processFunc recordings k choices hk
    exact (limiterInv_run processFunc recordings k hk choices).active_len
  · intro processFunc recordings k choices hk hdone
    exact limiterRun_complete_output processFunc recordings k choices hk hdone
  · intro processFunc recordings
    unfold processRecordingsInJob
    exact List.length_mapIdx
  · intro processFunc recordings i r hr
    rw [processRecordingsInJob_getElem, hr]
    rfl
  · intro processFunc recordings i r msg hr hf
    rw [processRecordingsInJob_getElem, hr]
    show some (runUnit processFunc recordings.length r i) = _
    unfold runUnit
    rw [hf]

/-- Witness for the C6 theorem: three units with maxConcurrent 2, the middle
unit failing, driven by an out-of-order completion schedule. -/
theorem processRecordingsInJob_spec_witness :
    (limiterRun
      (fun r i _ => if i = 1 then Except.error "boom"
        else Except.ok { success := true, sessionId := r.sessionId, error := none })
      [{ sessionId := "a" }, { sessionId := "b" }, { sessionId := "c" }] 2
      [1, 1, 0]).active.length ≤ 2 ∧
    limiterOutput 3 (limiterRun
      (fun r i _ => if i = 1 then Except.error "boom"
        else Except.ok { success := true, sessionId := r.sessionId, error := none })
      [{ sessionId := "a" }, { sessionId := "b" }, { sessionId := "c" }] 2
      [1, 1, 0]) =
      processRecordingsInJob
        [{ sessionId := "a" }, { sessionId := "b" }, { sessionId := "c" }]
        (fun r i _ => if i = 1 then Except.error "boom"
          else Except.ok { success := true, sessionId := r.sessionId, error := none }) ∧
    (processRecordingsInJob
        [{ sessionId := "a" }, { sessionId := "b" }, { sessionId := "c" }]
        (fun r i _ => if i = 1 then Except.error "boom"
          else Except.ok { success := true, sessionId := r.sessionId, error := none })).length = 3 ∧
    (processRecordingsInJob
        [{ sessionId := "a" }, { sessionId := "b" }, { sessionId := "c" }]
        (fun r i _ => if i = 1 then Except.error "boom"
          else Except.ok { success := true, sessionId := r.sessionId, error := none }))[1]? =
      some { success := false, sessionId := "b", error := some "boom" } := by
  refine ⟨?_, ?_, ?_, ?_⟩
  · exact processRecordingsInJob_spec.1 _ _ 2 [1, 1, 0] (by omega)
  · exact processRecordingsInJob_spec.2.1 _ _ 2 [1, 1, 0] (by omega) (by decide)
  · exact processRecordingsInJob_spec.2.2.1 _ _
  · exact processRecordingsInJob_spec.2.2.2.2 _ _ 1 { sessionId := "b" } "boom" rfl rfl

/-! ## The job queue manager (src/src/index.js lines 61-397)

Module-level state: `jobQueue` (FIFO of pending entries), `currentJob`,
`isProcessing` (the drain loop's re-entrancy guard), `allJobs` (insertion
ordered id → job map), `jobIdCounter`, `stats`.

A `Job` is identified here by `ctr`, the value `jobIdCounter` took at its
creation.  In the JavaScript, every mutation of a job record happens through
the object reference held by the queue entry, never through a map lookup, so
`ctr` plays the role of the object identity; the display id string is kept as
a field.  `allJobs` is the `Map` in insertion order.

The drain loop `processNextJob` suspends at two `await` points: the job's
processing callback, and the webhook delivery (`sendWebhookNotification` is
awaited on both the success and failure paths; if `webhookUrl` is unset it
returns synchronously without an attempt).  A `DrainCont` records where the
single live drain invocation is suspended.  Environment actions deliver job
submissions and the settlement of the awaited promises, each also advancing
the wall clock by an arbitrary amount `dt`. -/

inductive JobStatus
  | queued
  | processing
  | completed
  | failed
deriving DecidableEq, Repr

/-- Status values that will never transition again. -/
def isTerminal (st : JobStatus) : Bool :=
  st == JobStatus.completed || st == JobStatus.failed

/-- A job record, with the fields `createJob` initializes.  `ctr` is the
creation counter (object identity); `metadata` is opaque and carried through
unchanged. -/
structure Job where
  ctr : Nat
  id : String
  status : JobStatus
  folder : String
  createdAt : Nat
  startedAt : Option Nat
  completedAt : Option Nat
  recordingsTotal : Nat
  recordingsCompleted : Nat
  recordingsFailed : Nat
  results : List TaskResult
  error : Option String
  webhookUrl : Option String
  uploadToGdrive : Bool
  metadata : String
deriving DecidableEq, Repr

/-- Options accepted by `createJob` / `queueJob`. -/
structure JobOptions where
  recordingsCount : Nat
  webhookUrl : Option String
  outputDir : Option String
  uploadToGdrive : Bool
  metadata : String
deriving DecidableEq, Repr

/-- Where the single live drain-loop invocation is suspended. -/
inductive DrainCont
  | idle
  | awaitingProcess (c : Nat)
  | awaitingWebhook (c : Nat) (err : Option String)
deriving DecidableEq, Repr

/-- The module's `stats` object. -/
structure QueueStatsCounters where
  jobsCompleted : Nat
  jobsFailed : Nat
  recordingsProcessed : Nat
deriving DecidableEq, Repr

/-- The queue manager's module-level mutable state, plus the drain
continuation and a wall clock. -/
structure QueueState where
  jobQueue : List Nat
  currentJob : Option Nat
  isProcessing : Bool
  allJobs : List Job
  jobIdCounter : Nat
  stats : QueueStatsCounters
  now : Nat
  cont : DrainCont
deriving DecidableEq, Repr

/-- Observable events of one synchronous execution segment. -/
inductive Event
  | submitted (c : Nat) (hasWebhook : Bool)
  | started (c : Nat)
  | jobCompleted (c : Nat)
  | jobFailed (c : Nat)
  | webhookAttempt (c : Nat)
  | webhookSettled (c : Nat) (delivered : Bool)
  | resolvedCaller (c : Nat)
  | rejectedCaller (c : Nat) (msg : String)
deriving DecidableEq, Repr

/-- Environment actions: a `queueJob` call, the settlement of the awaited
processing callback (with its list of task results, or a rejection message),
or the settlement of the awaited webhook delivery (delivered or failed).
Each action advances the clock by `dt`. -/
inductive QueueAction
  | submit (dt : Nat) (opts : JobOptions)
  | processSettle (dt : Nat) (res : Except String (List TaskResult))
  | webhookSettle (dt : Nat) (delivered : Bool)

/-- The `allJobs.get(jobId)` lookup, by object identity. -/
def lookupJob (s : QueueState) (c : Nat) : Option Job :=
  s.allJobs.find? fun j => j.ctr == c

/-- In-place mutation of the job object identified by `c` (the JavaScript
mutates the record through the object reference). -/
def updateJobRecord (jobs : List Job) (c : Nat) (f : Job → Job) : List Job :=
  jobs.map fun j => if j.ctr = c then f j else j

/-- Model of `createJob`: allocate the id from the clock and the incremented
counter, build the record with status queued and a dedicated folder, insert
it into `allJobs`.  Returns the new state and the counter of the new job. -/
def createJob (s : QueueState) (opts : JobOptions) : QueueState × Nat :=
  let c := s.jobIdCounter + 1
  let jid := generateJobId s.now c
  let job : Job :=
    { ctr := c, id := jid, status := JobStatus.queued,
      folder := (opts.outputDir.getD "./recordings") ++ "/" ++ jid,
      createdAt := s.now, startedAt := none, completedAt := none,
      recordingsTotal := opts.recordingsCount,
      recordingsCompleted := 0, recordingsFailed := 0,
      results := [], error := none, webhookUrl := opts.webhookUrl,
      uploadToGdrive := opts.uploadToGdrive, metadata := opts.metadata }
  ({ s with jobIdCounter := c, allJobs := s.allJobs ++ [job] }, c)

/-- The synchronous prefix of `processNextJob`: return immediately when the
guard is set or the queue is empty; otherwise set the guard, shift the head
entry, set `currentJob`, mark the job processing with `startedAt = now`, and
invoke its processing callback (suspending on the await). -/
def processNextJob (s : QueueState) : QueueState × List Event :=
  if s.isProcessing then (s, [])
  else
    match s.jobQueue with
    | [] => (s, [])
    | c :: rest =>
      ({ s with
          isProcessing := true,
          jobQueue := rest,
          currentJob := some c,
          allJobs := updateJobRecord s.allJobs c fun j =>
            { j with status := JobStatus.processing, startedAt := some s.now },
          cont := DrainCont.awaitingProcess c }, [Event.started c])

/-- Sort key used by `cleanupOldJobs`: `new Date(completedAt)`, with the epoch
for a missing timestamp (`new Date(null)`). -/
def completedAtKey (j : Job) : Nat := j.completedAt.getD 0

/-- Comparator of `cleanupOldJobs`: job `a` sorts no later than job `b` when
its completion time is no older, i.e. the sort is by `completedAt`
descending. -/
def newerFirst (a b : Job) : Prop := completedAtKey b ≤ completedAtKey a

instance : DecidableRel newerFirst := fun a b =>
  inferInstanceAs (Decidable (completedAtKey b ≤ completedAtKey a))

/-- The `completed` list of `cleanupOldJobs`: terminal jobs sorted by
`completedAt` descending.  The sort is modelled by insertion sort, which
agrees with the JavaScript engine's sort on every property used here
(sortedness by the comparator and permutation of the input). -/
def sortedTerminal (jobs : List Job) : List Job :=
  (jobs.filter fun j => isTerminal j.status).insertionSort newerFirst

/-- Model of `cleanupOldJobs` on the store: when more than 50 terminal jobs
remain, delete all but the 50 most recently completed from the map. -/
def cleanupJobs (jobs : List Job) : List Job :=
  if 50 < (sortedTerminal jobs).length then
    jobs.filter fun j => !(((sortedTerminal jobs).drop 50).map Job.ctr).contains j.ctr
  else jobs

/-- Model of `cleanupOldJobs`: it touches only the `allJobs` map. -/
def cleanupOldJobs (s : QueueState) : QueueState :=
  { s with allJobs := cleanupJobs s.allJobs }

/-- Whether the stored job's `webhookUrl` is set (the notifier's early-return
test).  The current job is always present in the store (an invariant proved
below), so the `none` fallback is never exercised from reachable states. -/
def jobWebhookSet (s : QueueState) (c : Nat) : Bool :=
  match lookupJob s c with
  | some j => j.webhookUrl.isSome
  | none => false

/-- The tail of `processNextJob` shared by both outcome paths once webhook
delivery (if any) has settled: settle the caller's promise, then the `finally`
block — clear `currentJob` and the guard, run `cleanupOldJobs`, and
synchronously re-invoke `processNextJob`. -/
def finishJob (s : QueueState) (c : Nat) (err : Option String) : QueueState × List Event :=
  let callerEv := match err with
    | none => Event.resolvedCaller c
    | some m => Event.rejectedCaller c m
  let s1 := cleanupOldJobs
    { s with currentJob := none, isProcessing := false, cont := DrainCont.idle }
  let p := processNextJob s1
  (p.1, callerEv :: p.2)

/-- State after the resolution path of the drain loop updates the job: store
the results, derive the success and failure counts from them, mark the job
completed with `completedAt = now`, and bump the completion stats. -/
def completeState (s : QueueState) (c : Nat) (results : List TaskResult) : QueueState :=
  { s with
    allJobs := updateJobRecord s.allJobs c fun j =>
      { j with status := JobStatus.completed, completedAt := some s.now,
               results := results,
               recordingsCompleted := (results.filter fun r => r.success).length,
               recordingsFailed := (results.filter fun r => !r.success).length },
    stats := { s.stats with
      jobsCompleted := s.stats.jobsCompleted + 1,
      recordingsProcessed := s.stats.recordingsProcessed + results.length } }

/-- State after the rejection path of the drain loop updates the job: mark it
failed, store the error message, stamp `completedAt`, bump the failure
counter. -/
def failState (s : QueueState) (c : Nat) (msg : String) : QueueState :=
  { s with
    allJobs := updateJobRecord s.allJobs c fun j =>
      { j with status := JobStatus.failed, completedAt := some s.now,
               error := some msg },
    stats := { s.stats with jobsFailed := s.stats.jobsFailed + 1 } }

/-- Resumption of the drain loop when the processing callback settles: on
resolution, store the results, derive the success and failure counts, mark
the job completed; on rejection, mark it failed with the error message.
Either way stamp `completedAt`, update `stats`, then await the webhook
notification (an attempt is made only when `webhookUrl` is set), and
afterwards run the shared finish path. -/
def settleProcess (s : QueueState) (c : Nat)
    (res : Except String (List TaskResult)) : QueueState × List Event :=
  match res with
  | Except.ok results =>
    if jobWebhookSet (completeState s c results) c then
      ({ completeState s c results with cont := DrainCont.awaitingWebhook c none },
        [Event.jobCompleted c, Event.webhookAttempt c])
    else
      let p := finishJob (completeState s c results) c none
      (p.1, Event.jobCompleted c :: p.2)
  | Except.error msg =>
    if jobWebhookSet (failState s c msg) c then
      ({ failState s c msg with cont := DrainCont.awaitingWebhook c (some msg) },
        [Event.jobFailed c, Event.webhookAttempt c])
    else
      let p := finishJob (failState s c msg) c (some msg)
      (p.1, Event.jobFailed c :: p.2)

/-- One synchronous execution segment.  `submit` is a `queueJob` call:
create the job, push the entry, and call `processNextJob`.  The settle
actions resume the suspended drain invocation; they are no-ops unless the
continuation is at the matching await.  The webhook delivery outcome is only
logged by the JavaScript, so it does not enter the state. -/
def step (s : QueueState) : QueueAction → QueueState × List Event
  | QueueAction.submit dt opts =>
    let s0 := { s with now := s.now + dt }
    let p0 := createJob s0 opts
    let s2 := { p0.1 with jobQueue := p0.1.jobQueue ++ [p0.2] }
    let p := processNextJob s2
    (p.1, Event.submitted p0.2 opts.webhookUrl.isSome :: p.2)
  | QueueAction.processSettle dt res =>
    match s.cont with
    | DrainCont.awaitingProcess c =>
      settleProcess { s with now := s.now + dt } c res
    | _ => (s, [])
  | QueueAction.webhookSettle dt delivered =>
    match s.cont with
    | DrainCont.awaitingWebhook c err =>
      let p := finishJob { s with now := s.now + dt } c err
      (p.1, Event.webhookSettled c delivered :: p.2)
    | _ => (s, [])

/-- The module's initial state. -/
def initState : QueueState :=
  { jobQueue := [], currentJob := none, isProcessing := false, allJobs := [],
    jobIdCounter := 0,
    stats := { jobsCompleted := 0, jobsFailed := 0, recordingsProcessed := 0 },
    now := 0, cont := DrainCont.idle }

/-- Run a list of actions from a given state, accumulating events. -/
def runFrom (s : QueueState) (evs : List Event) :
    List QueueAction → QueueState × List Event
  | [] => (s, evs)
  | a :: rest =>
    let p := step s a
    runFrom p.1 (evs ++ p.2) rest

/-- Run a list of actions from the initial state. -/
def run (acts : List QueueAction) : QueueState × List Event :=
  runFrom initState [] acts

/-! ## Trace observables and the reachability invariant -/

/-- Counter of a `started` event. -/
def startedCtr : Event → Option Nat
  | Event.started c => some c
  | _ => none

/-- Counters marked processing, in trace order. -/
def startedCtrs (evs : List Event) : List Nat := evs.filterMap startedCtr

/-- Counter of a `submitted` event. -/
def submittedCtr : Event → Option Nat
  | Event.submitted c _ => some c
  | _ => none

/-- Counters submitted, in trace order. -/
def submittedCtrs (evs : List Event) : List Nat := evs.filterMap submittedCtr

/-- Recognizer of the terminal-transition events of job `c`. -/
def isTerminalEvFor (c : Nat) : Event → Bool
  | Event.jobCompleted x => x == c
  | Event.jobFailed x => x == c
  | _ => false

/-- How many times job `c` has transitioned to a terminal state. -/
def terminalCount (evs : List Event) (c : Nat) : Nat := evs.countP (isTerminalEvFor c)

/-- Recognizer of webhook delivery attempts for job `c`. -/
def isAttemptFor (c : Nat) : Event → Bool
  | Event.webhookAttempt x => x == c
  | _ => false

/-- How many webhook delivery attempts have been made for job `c`. -/
def attemptCount (evs : List Event) (c : Nat) : Nat := evs.countP (isAttemptFor c)

/-- The counter of the last job marked processing: for a suspended drain
invocation the suspended job's counter, in the idle state the total number of
submissions (every submitted job has been started once the queue drains). -/
def contCtr (s : QueueState) : Nat :=
  match s.cont with
  | DrainCont.idle => s.jobIdCounter
  | DrainCont.awaitingProcess c => c
  | DrainCont.awaitingWebhook c _ => c

/-- How many jobs have reached a terminal state. -/
def finishedCount (s : QueueState) : Nat :=
  match s.cont with
  | DrainCont.idle => s.jobIdCounter
  | DrainCont.awaitingProcess c => c - 1
  | DrainCont.awaitingWebhook c _ => c

/-- The number of terminal jobs present in the store: the retention trimmer
keeps it at the 50 most recent, with the one job that turned terminal since
the last trim exceeding the cap while its webhook is in flight. -/
def terminalStoreCount (s : QueueState) : Nat :=
  match s.cont with
  | DrainCont.idle => min s.jobIdCounter 50
  | DrainCont.awaitingProcess c => min (c - 1) 50
  | DrainCont.awaitingWebhook c _ => min (c - 1) 50 + 1

/-- Whether a drain invocation is live. -/
def contBusy : DrainCont → Bool
  | DrainCont.idle => false
  | _ => true

/-- The `currentJob` reference determined by the continuation. -/
def contCurrent : DrainCont → Option Nat
  | DrainCont.idle => none
  | DrainCont.awaitingProcess c => some c
  | DrainCont.awaitingWebhook c _ => some c

theorem startedCtrs_append (l₁ l₂ : List Event) :
    startedCtrs (l₁ ++ l₂) = startedCtrs l₁ ++ startedCtrs l₂ :=
  List.filterMap_append l₁ l₂ startedCtr

theorem submittedCtrs_append (l₁ l₂ : List Event) :
    submittedCtrs (l₁ ++ l₂) = submittedCtrs l₁ ++ submittedCtrs l₂ :=
  List.filterMap_append l₁ l₂ submittedCtr

theorem terminalCount_append (l₁ l₂ : List Event) (c : Nat) :
    terminalCount (l₁ ++ l₂) c = terminalCount l₁ c + terminalCount l₂ c :=
  List.countP_append _ l₁ l₂

theorem attemptCount_append (l₁ l₂ : List Event) (c : Nat) :
    attemptCount (l₁ ++ l₂) c = attemptCount l₁ c + attemptCount l₂ c :=
  List.countP_append _ l₁ l₂

theorem submitted_mem_ctrs (evs : List Event) (c : Nat) (b : Bool)
    (h : Event.submitted c b ∈ evs) : c ∈ submittedCtrs evs := by
  unfold submittedCtrs
  exact List.mem_filterMap.mpr ⟨Event.submitted c b, h, rfl⟩

/-- Range decomposition used when a submission is appended. -/
theorem range'_snoc (a n : Nat) :
    List.range' a n ++ [a + n] = List.range' a (n + 1) := by
  have h := List.range'_append a n 1 1
  simp only [Nat.one_mul] at h
  rw [show List.range' (a + n) 1 = [a + n] from rfl] at h
  rw [show (1:Nat) + n = n + 1 from Nat.add_comm 1 n] at h
  exact h

/-- In-place update leaves a store without the target counter unchanged. -/
theorem updateJobRecord_not_mem (jobs : List Job) (c : Nat) (f : Job → Job)
    (h : ∀ j ∈ jobs, j.ctr ≠ c) : updateJobRecord jobs c f = jobs := by
  unfold updateJobRecord
  refine Eq.trans (List.map_congr_left ?_) (List.map_id jobs)
  intro j hj
  rw [if_neg (h j hj)]
  rfl

/-- Unique decomposition of an in-place update in a store with strictly
increasing counters. -/
theorem updateJobRecord_decomp (jobs : List Job) (c : Nat) (f : Job → Job) (j₀ : Job)
    (hp : List.Pairwise (fun a b => a.ctr < b.ctr) jobs) (hmem : j₀ ∈ jobs)
    (hc : j₀.ctr = c) :
    ∃ l₁ l₂, jobs = l₁ ++ j₀ :: l₂ ∧
      updateJobRecord jobs c f = l₁ ++ f j₀ :: l₂ ∧
      (∀ j ∈ l₁, j.ctr < c) ∧ (∀ j ∈ l₂, c < j.ctr) := by
  obtain ⟨l₁, l₂, rfl⟩ := List.append_of_mem hmem
  have h₁ : ∀ j ∈ l₁, j.ctr < c := by
    intro j hj
    have := (List.pairwise_append.mp hp).2.2 j hj j₀ (List.mem_cons_self _ _)
    omega
  have h₂ : ∀ j ∈ l₂, c < j.ctr := by
    intro j hj
    have hcons := (List.pairwise_append.mp hp).2.1
    have := (List.pairwise_cons.mp hcons).1 j hj
    omega
  refine ⟨l₁, l₂, rfl, ?_, h₁, h₂⟩
  unfold updateJobRecord
  rw [List.map_append, List.map_cons]
  have e₁ : l₁.map (fun j => if j.ctr = c then f j else j) = l₁ := by
    refine Eq.trans (List.map_congr_left ?_) (List.map_id l₁)
    intro j hj
    rw [if_neg (by have := h₁ j hj; omega)]
    rfl
  have e₂ : l₂.map (fun j => if j.ctr = c then f j else j) = l₂ := by
    refine Eq.trans (List.map_congr_left ?_) (List.map_id l₂)
    intro j hj
    rw [if_neg (by have := h₂ j hj; omega)]
    rfl
  rw [e₁, e₂, if_pos hc]

/-- Membership in an updated store. -/
theorem mem_updateJobRecord (jobs : List Job) (c : Nat) (f : Job → Job) (j : Job)
    (h : j ∈ updateJobRecord jobs c f) :
    ∃ j₀ ∈ jobs, j = (if j₀.ctr = c then f j₀ else j₀) := by
  unfold updateJobRecord at h
  obtain ⟨j₀, hj₀, he⟩ := List.mem_map.mp h
  exact ⟨j₀, hj₀, he.symm⟩

theorem find?_ctr_append (l₁ l₂ : List Job) (j : Job) (c : Nat) (hc : j.ctr = c)
    (h₁ : ∀ x ∈ l₁, x.ctr ≠ c) :
    List.find? (fun x => x.ctr == c) (l₁ ++ j :: l₂) = some j := by
  induction l₁ with
  | nil =>
    simp only [List.nil_append]
    rw [List.find?_cons_of_pos _ (by simp [hc])]
  | cons a t ih =>
    have ha : (a.ctr == c) = false := by
      have := h₁ a (List.mem_cons_self _ _)
      simpa using this
    simp only [List.cons_append]
    rw [List.find?_cons_of_neg _ (by simp [ha])]
    exact ih fun x hx => h₁ x (List.mem_cons_of_mem _ hx)

/-- Lookup finds the unique record carrying a counter. -/
theorem lookupJob_eq_some (s : QueueState) (c : Nat) (j : Job)
    (hp : List.Pairwise (fun a b => a.ctr < b.ctr) s.allJobs)
    (hmem : j ∈ s.allJobs) (hc : j.ctr = c) : lookupJob s c = some j := by
  unfold lookupJob
  obtain ⟨l₁, l₂, he⟩ := List.append_of_mem hmem
  rw [he] at hp ⊢
  refine find?_ctr_append l₁ l₂ j c hc ?_
  intro x hx
  have := (List.pairwise_append.mp hp).2.2 x hx j (List.mem_cons_self _ _)
  omega

/-! ## Retention trimming lemmas -/

instance : IsTotal Job newerFirst :=
  ⟨fun a b => Nat.le_total (completedAtKey b) (completedAtKey a)⟩

instance : IsTrans Job newerFirst :=
  ⟨fun _ _ _ hab hbc => Nat.le_trans hbc hab⟩

theorem sortedTerminal_perm (jobs : List Job) :
    (sortedTerminal jobs).Perm (jobs.filter fun j => isTerminal j.status) :=
  List.perm_insertionSort newerFirst _

theorem sortedTerminal_sorted (jobs : List Job) :
    List.Sorted newerFirst (sortedTerminal jobs) :=
  List.sorted_insertionSort newerFirst _

theorem sortedTerminal_mem (jobs : List Job) (j : Job) (h : j ∈ sortedTerminal jobs) :
    j ∈ jobs ∧ isTerminal j.status = true := by
  have h2 := (sortedTerminal_perm jobs).mem_iff.mp h
  rw [List.mem_filter] at h2
  exact h2

/-- Strictly increasing counters make records with equal counters equal. -/
theorem ctr_inj_of_pairwise (jobs : List Job)
    (hp : List.Pairwise (fun a b => a.ctr < b.ctr) jobs) :
    ∀ j ∈ jobs, ∀ j' ∈ jobs, j.ctr = j'.ctr → j = j' := by
  induction jobs with
  | nil => intro j hj; simp at hj
  | cons a t ih =>
    intro j hj j' hj' he
    have hhead := (List.pairwise_cons.mp hp).1
    have htail := (List.pairwise_cons.mp hp).2
    rcases List.mem_cons.mp hj with hja | hjt <;>
      rcases List.mem_cons.mp hj' with hj'a | hj't
    · rw [hja, hj'a]
    · have := hhead j' hj't
      rw [hja] at he
      omega
    · have := hhead j hjt
      rw [hj'a] at he
      omega
    · exact ih htail j hjt j' hj't he

theorem nodup_of_pairwise_ctr (jobs : List Job)
    (hp : List.Pairwise (fun a b => a.ctr < b.ctr) jobs) : jobs.Nodup := by
  refine hp.imp ?_
  intro a b hab
  intro he
  rw [he] at hab
  omega

theorem cleanupJobs_sublist (jobs : List Job) : (cleanupJobs jobs).Sublist jobs := by
  unfold cleanupJobs
  by_cases h : 50 < (sortedTerminal jobs).length
  · rw [if_pos h]
    exact List.filter_sublist jobs
  · rw [if_neg h]

/-- Trimming never deletes a job that is not terminal. -/
theorem cleanupJobs_keeps_nonterminal (jobs : List Job)
    (hp : List.Pairwise (fun a b => a.ctr < b.ctr) jobs) (j : Job)
    (hmem : j ∈ jobs) (hnt : isTerminal j.status = false) : j ∈ cleanupJobs jobs := by
  unfold cleanupJobs
  by_cases h : 50 < (sortedTerminal jobs).length
  · rw [if_pos h]
    refine List.mem_filter.mpr ⟨hmem, ?_⟩
    simp only [Bool.not_eq_true']
    by_contra hcontra
    rw [Bool.not_eq_false] at hcontra
    have hmm : j.ctr ∈ (((sortedTerminal jobs).drop 50).map Job.ctr) := by
      simpa using hcontra
    obtain ⟨y, hy, hyc⟩ := List.mem_map.mp hmm
    have hyS : y ∈ sortedTerminal jobs := List.mem_of_mem_drop hy
    obtain ⟨hyj, hyterm⟩ := sortedTerminal_mem jobs y hyS
    have hyj2 : y = j := ctr_inj_of_pairwise jobs hp y hyj j hmem hyc
    rw [hyj2, hnt] at hyterm
    exact absurd hyterm (by simp)
  · rw [if_neg h]
    exact hmem

theorem sortedTerminal_nodup (jobs : List Job)
    (hp : List.Pairwise (fun a b => a.ctr < b.ctr) jobs) :
    (sortedTerminal jobs).Nodup := by
  have h1 : (jobs.filter fun j => isTerminal j.status).Nodup :=
    (nodup_of_pairwise_ctr jobs hp).sublist (List.filter_sublist jobs)
  exact ((sortedTerminal_perm jobs).nodup_iff).mpr h1

/-- A job beyond the 50th slot of the sorted terminal list is exactly one the
trim deletes. -/
theorem mem_drop_of_deleted (jobs : List Job)
    (hp : List.Pairwise (fun a b => a.ctr < b.ctr) jobs) (j : Job) (hmem : j ∈ jobs)
    (hcont : (((sortedTerminal jobs).drop 50).map Job.ctr).contains j.ctr = true) :
    j ∈ (sortedTerminal jobs).drop 50 := by
  have hmm : j.ctr ∈ ((sortedTerminal jobs).drop 50).map Job.ctr := by simpa using hcont
  obtain ⟨y, hy, hyc⟩ := List.mem_map.mp hmm
  have hyS : y ∈ sortedTerminal jobs := List.mem_of_mem_drop hy
  have hyj : y ∈ jobs := (sortedTerminal_mem jobs y hyS).1
  have : y = j := ctr_inj_of_pairwise jobs hp y hyj j hmem hyc
  rw [← this]
  exact hy

/-- Jobs in the first 50 slots of the sorted terminal list survive the trim. -/
theorem take_not_deleted (jobs : List Job)
    (hp : List.Pairwise (fun a b => a.ctr < b.ctr) jobs) (x : Job)
    (hx : x ∈ (sortedTerminal jobs).take 50) :
    (!(((sortedTerminal jobs).drop 50).map Job.ctr).contains x.ctr) = true := by
  have hnodup := sortedTerminal_nodup jobs hp
  rw [Bool.not_eq_true', Bool.eq_false_iff]
  intro hcont
  have hxS : x ∈ sortedTerminal jobs := List.mem_of_mem_take hx
  have hdrop : x ∈ (sortedTerminal jobs).drop 50 :=
    mem_drop_of_deleted jobs hp x (sortedTerminal_mem jobs x hxS).1 hcont
  have hsplit : (sortedTerminal jobs).take 50 ++ (sortedTerminal jobs).drop 50 =
      sortedTerminal jobs := List.take_append_drop 50 _
  rw [← hsplit] at hnodup
  exact (List.nodup_append.mp hnodup).2.2 hx hdrop

/-- Splitting a filter at an index. -/
theorem filter_take_drop (p : Job → Bool) (l : List Job) (n : Nat) :
    l.filter p = (l.take n).filter p ++ (l.drop n).filter p := by
  conv_lhs => rw [← List.take_append_drop n l]
  rw [List.filter_append]

/-- Trimming leaves exactly `min count 50` terminal jobs in the store. -/
theorem cleanupJobs_terminal_count (jobs : List Job)
    (hp : List.Pairwise (fun a b => a.ctr < b.ctr) jobs) :
    ((cleanupJobs jobs).filter fun j => isTerminal j.status).length =
      min ((jobs.filter fun j => isTerminal j.status).length) 50 := by
  have hlenC : (sortedTerminal jobs).length =
      (jobs.filter fun j => isTerminal j.status).length :=
    (sortedTerminal_perm jobs).length_eq
  unfold cleanupJobs
  by_cases h : 50 < (sortedTerminal jobs).length
  · rw [if_pos h]
    rw [List.filter_comm]
    have hpermC : ((sortedTerminal jobs).filter fun j =>
        !(((sortedTerminal jobs).drop 50).map Job.ctr).contains j.ctr).Perm
        ((jobs.filter fun j => isTerminal j.status).filter fun j =>
          !(((sortedTerminal jobs).drop 50).map Job.ctr).contains j.ctr) :=
      (sortedTerminal_perm jobs).filter _
    rw [← hpermC.length_eq]
    have hsplit : (sortedTerminal jobs).take 50 ++ (sortedTerminal jobs).drop 50 =
        sortedTerminal jobs := List.take_append_drop 50 _
    have htake : ((sortedTerminal jobs).take 50).filter (fun j =>
        !(((sortedTerminal jobs).drop 50).map Job.ctr).contains j.ctr) =
        (sortedTerminal jobs).take 50 := by
      rw [List.filter_eq_self]
      intro x hx
      exact take_not_deleted jobs hp x hx
    have hdrop : ((sortedTerminal jobs).drop 50).filter (fun j =>
        !(((sortedTerminal jobs).drop 50).map Job.ctr).contains j.ctr) = [] := by
      rw [List.filter_eq_nil_iff]
      intro x hx
      have hc : (((sortedTerminal jobs).drop 50).map Job.ctr).contains x.ctr = true :=
        List.elem_eq_true_of_mem (List.mem_map.mpr ⟨x, hx, rfl⟩)
      rw [hc]
      simp
    rw [filter_take_drop _ (sortedTerminal jobs) 50, htake, hdrop,
      List.length_append, List.length_nil, List.length_take]
    have : (sortedTerminal jobs).length = (jobs.filter fun j => isTerminal j.status).length :=
      hlenC
    omega
  · rw [if_neg h]
    omega

/-- Every job the trim deletes ranks below every surviving terminal job in
completion time. -/
theorem cleanupJobs_ranking (jobs : List Job)
    (hp : List.Pairwise (fun a b => a.ctr < b.ctr) jobs) (j : Job) (hmem : j ∈ jobs)
    (_hterm : isTerminal j.status = true) (hdel : j ∉ cleanupJobs jobs) :
    ∀ j' ∈ cleanupJobs jobs, isTerminal j'.status = true →
      completedAtKey j ≤ completedAtKey j' := by
  intro j' hj' hterm'
  unfold cleanupJobs at hdel hj'
  by_cases h : 50 < (sortedTerminal jobs).length
  · rw [if_pos h] at hdel hj'
    have hq : ¬ ((!(((sortedTerminal jobs).drop 50).map Job.ctr).contains j.ctr) = true) := by
      intro hq
      exact hdel (List.mem_filter.mpr ⟨hmem, hq⟩)
    have hcont : (((sortedTerminal jobs).drop 50).map Job.ctr).contains j.ctr = true := by
      revert hq
      cases (((sortedTerminal jobs).drop 50).map Job.ctr).contains j.ctr <;> simp
    have hjdrop : j ∈ (sortedTerminal jobs).drop 50 :=
      mem_drop_of_deleted jobs hp j hmem hcont
    obtain ⟨hj'mem, hj'q⟩ := List.mem_filter.mp hj'
    have hj'C : j' ∈ sortedTerminal jobs := by
      have : j' ∈ jobs.filter fun x => isTerminal x.status :=
        List.mem_filter.mpr ⟨hj'mem, hterm'⟩
      exact (sortedTerminal_perm jobs).mem_iff.mpr this
    have hsplit : (sortedTerminal jobs).take 50 ++ (sortedTerminal jobs).drop 50 =
        sortedTerminal jobs := List.take_append_drop 50 _
    have hj'take : j' ∈ (sortedTerminal jobs).take 50 := by
      rw [← hsplit] at hj'C
      rcases List.mem_append.mp hj'C with hc | hc
      · exact hc
      · exfalso
        have : (((sortedTerminal jobs).drop 50).map Job.ctr).contains j'.ctr = true := by
          have : j'.ctr ∈ ((sortedTerminal jobs).drop 50).map Job.ctr :=
            List.mem_map.mpr ⟨j', hc, rfl⟩
          simpa using this
        rw [this] at hj'q
        exact absurd hj'q (by simp)
    have hsorted := sortedTerminal_sorted jobs
    rw [← hsplit] at hsorted
    exact (List.pairwise_append.mp hsorted).2.2 j' hj'take j hjdrop
  · rw [if_neg h] at hdel
    exact absurd hmem hdel

theorem range'_one_snoc (m : Nat) :
    List.range' 1 m ++ [m + 1] = List.range' 1 (m + 1) := by
  have h := range'_snoc 1 m
  rw [Nat.add_comm 1 m] at h
  exact h

theorem terminalCount_singleton (e : Event) (c : Nat) :
    terminalCount [e] c = if isTerminalEvFor c e then 1 else 0 := by
  simp [terminalCount, List.countP_cons]

theorem attemptCount_singleton (e : Event) (c : Nat) :
    attemptCount [e] c = if isAttemptFor c e then 1 else 0 := by
  simp [attemptCount, List.countP_cons]

/-- Replacing the middle record by one with the same counter keeps the
counters strictly increasing. -/
theorem pairwise_update_middle (l₁ l₂ : List Job) (a b : Job) (hab : a.ctr = b.ctr)
    (hp : List.Pairwise (fun x y => x.ctr < y.ctr) (l₁ ++ a :: l₂)) :
    List.Pairwise (fun x y => x.ctr < y.ctr) (l₁ ++ b :: l₂) := by
  rw [List.pairwise_append] at hp ⊢
  obtain ⟨h₁, h₂, h₃⟩ := hp
  rw [List.pairwise_cons] at h₂ ⊢
  refine ⟨h₁, ⟨?_, h₂.2⟩, ?_⟩
  · intro y hy
    have := h₂.1 y hy
    omega
  · intro x hx y hy
    rcases List.mem_cons.mp hy with hy | hy
    · have := h₃ x hx a (List.mem_cons_self _ _)
      rw [hy]
      omega
    · exact h₃ x hx y (List.mem_cons_of_mem _ hy)

/-- Filter count through the replacement of the middle record. -/
theorem filter_length_middle (l₁ l₂ : List Job) (a b : Job) (p : Job → Bool) :
    ((l₁ ++ b :: l₂).filter p).length + (if p a then 1 else 0) =
      ((l₁ ++ a :: l₂).filter p).length + (if p b then 1 else 0) := by
  rw [List.filter_append, List.filter_append, List.filter_cons, List.filter_cons]
  cases hpa : p a <;> cases hpb : p b <;>
    simp [List.length_append] <;> omega

/-- Invariant of every reachable state of the queue manager, relative to the
trace of events emitted so far. -/
structure QueueInv (s : QueueState) (evs : List Event) : Prop where
  counter_ge : contCtr s ≤ s.jobIdCounter
  cont_pos : s.cont = DrainCont.idle ∨ 1 ≤ contCtr s
  started_eq : startedCtrs evs = List.range' 1 (contCtr s)
  submitted_eq : submittedCtrs evs = List.range' 1 s.jobIdCounter
  queue_eq : s.jobQueue = List.range' (contCtr s + 1) (s.jobIdCounter - contCtr s)
  guard_eq : s.isProcessing = contBusy s.cont
  current_eq : s.currentJob = contCurrent s.cont
  ctrs_bounds : ∀ j ∈ s.allJobs, 1 ≤ j.ctr ∧ j.ctr ≤ s.jobIdCounter
  ctrs_sorted : List.Pairwise (fun a b => a.ctr < b.ctr) s.allJobs
  status_queued : ∀ j ∈ s.allJobs, (j.status = JobStatus.queued ↔ contCtr s < j.ctr)
  status_processing : ∀ j ∈ s.allJobs,
    (j.status = JobStatus.processing ↔ s.cont = DrainCont.awaitingProcess j.ctr)
  queue_mem : ∀ c ∈ s.jobQueue, ∃ j ∈ s.allJobs, j.ctr = c
  current_mem : ∀ c, s.currentJob = some c → ∃ j ∈ s.allJobs, j.ctr = c
  webhook_align : ∀ c e, s.cont = DrainCont.awaitingWebhook c e →
    ∃ j ∈ s.allJobs, j.ctr = c ∧ j.webhookUrl.isSome = true ∧ j.error = e ∧
      j.status = (match e with
        | none => JobStatus.completed
        | some _ => JobStatus.failed)
  url_flag : ∀ j ∈ s.allJobs, Event.submitted j.ctr j.webhookUrl.isSome ∈ evs
  terminal_counts : ∀ c, terminalCount evs c =
    if 1 ≤ c ∧ c ≤ finishedCount s then 1 else 0
  attempt_eq : ∀ c b, Event.submitted c b ∈ evs →
    attemptCount evs c = if b then terminalCount evs c else 0
  attempt_fresh : ∀ c, s.jobIdCounter < c → attemptCount evs c = 0
  timestamps : ∀ j ∈ s.allJobs,
    (j.status ≠ JobStatus.queued → j.startedAt.isSome = true) ∧
    (isTerminal j.status = true → j.completedAt.isSome = true)
  store_count : ((s.allJobs.filter fun j => isTerminal j.status).length) =
    terminalStoreCount s
  error_none : ∀ j ∈ s.allJobs, isTerminal j.status = false → j.error = none

/-- State of the drain loop right after the current job (counter `m`) turned
terminal, before the caller's promise is settled and the `finally` block
runs.  The continuation fields are about to be overwritten and are left
unconstrained. -/
structure MidInv (s : QueueState) (evs : List Event) (m : Nat) : Prop where
  m_le : m ≤ s.jobIdCounter
  m_pos : 1 ≤ m
  started_eq : startedCtrs evs = List.range' 1 m
  submitted_eq : submittedCtrs evs = List.range' 1 s.jobIdCounter
  queue_eq : s.jobQueue = List.range' (m + 1) (s.jobIdCounter - m)
  ctrs_bounds : ∀ j ∈ s.allJobs, 1 ≤ j.ctr ∧ j.ctr ≤ s.jobIdCounter
  ctrs_sorted : List.Pairwise (fun a b => a.ctr < b.ctr) s.allJobs
  status_queued : ∀ j ∈ s.allJobs, (j.status = JobStatus.queued ↔ m < j.ctr)
  no_processing : ∀ j ∈ s.allJobs, j.status ≠ JobStatus.processing
  queue_mem : ∀ c ∈ s.jobQueue, ∃ j ∈ s.allJobs, j.ctr = c
  url_flag : ∀ j ∈ s.allJobs, Event.submitted j.ctr j.webhookUrl.isSome ∈ evs
  terminal_counts : ∀ c, terminalCount evs c = if 1 ≤ c ∧ c ≤ m then 1 else 0
  attempt_eq : ∀ c b, Event.submitted c b ∈ evs →
    attemptCount evs c = if b then terminalCount evs c else 0
  attempt_fresh : ∀ c, s.jobIdCounter < c → attemptCount evs c = 0
  timestamps : ∀ j ∈ s.allJobs,
    (j.status ≠ JobStatus.queued → j.startedAt.isSome = true) ∧
    (isTerminal j.status = true → j.completedAt.isSome = true)
  store_count : ((s.allJobs.filter fun j => isTerminal j.status).length) =
    min (m - 1) 50 + 1
  error_none : ∀ j ∈ s.allJobs, isTerminal j.status = false → j.error = none

/-- State from which the drain loop may pick up the next job: guard clear,
idle continuation, `m` jobs started and finished, the trim already applied. -/
structure ReadyInv (s : QueueState) (evs : List Event) (m : Nat) : Prop where
  cont_idle : s.cont = DrainCont.idle
  guard_clear : s.isProcessing = false
  current_none : s.currentJob = none
  m_le : m ≤ s.jobIdCounter
  started_eq : startedCtrs evs = List.range' 1 m
  submitted_eq : submittedCtrs evs = List.range' 1 s.jobIdCounter
  queue_eq : s.jobQueue = List.range' (m + 1) (s.jobIdCounter - m)
  ctrs_bounds : ∀ j ∈ s.allJobs, 1 ≤ j.ctr ∧ j.ctr ≤ s.jobIdCounter
  ctrs_sorted : List.Pairwise (fun a b => a.ctr < b.ctr) s.allJobs
  status_queued : ∀ j ∈ s.allJobs, (j.status = JobStatus.queued ↔ m < j.ctr)
  no_processing : ∀ j ∈ s.allJobs, j.status ≠ JobStatus.processing
  queue_mem : ∀ c ∈ s.jobQueue, ∃ j ∈ s.allJobs, j.ctr = c
  url_flag : ∀ j ∈ s.allJobs, Event.submitted j.ctr j.webhookUrl.isSome ∈ evs
  terminal_counts : ∀ c, terminalCount evs c = if 1 ≤ c ∧ c ≤ m then 1 else 0
  attempt_eq : ∀ c b, Event.submitted c b ∈ evs →
    attemptCount evs c = if b then terminalCount evs c else 0
  attempt_fresh : ∀ c, s.jobIdCounter < c → attemptCount evs c = 0
  timestamps : ∀ j ∈ s.allJobs,
    (j.status ≠ JobStatus.queued → j.startedAt.isSome = true) ∧
    (isTerminal j.status = true → j.completedAt.isSome = true)
  store_count : ((s.allJobs.filter fun j => isTerminal j.status).length) = min m 50
  error_none : ∀ j ∈ s.allJobs, isTerminal j.status = false → j.error = none

theorem startedCtrs_started (c : Nat) : startedCtrs [Event.started c] = [c] := rfl

theorem submittedCtrs_started (c : Nat) : submittedCtrs [Event.started c] = [] := rfl

/-- The state `processNextJob` produces when it shifts queue head `c`. -/
def popState (r : QueueState) (c : Nat) (rest : List Nat) : QueueState :=
  { r with
    isProcessing := true,
    jobQueue := rest,
    currentJob := some c,
    allJobs := updateJobRecord r.allJobs c fun j =>
      { j with status := JobStatus.processing, startedAt := some r.now },
    cont := DrainCont.awaitingProcess c }

theorem processNextJob_eq_nil (r : QueueState) (hg : r.isProcessing = false)
    (hq : r.jobQueue = []) : processNextJob r = (r, []) := by
  unfold processNextJob
  rw [hg, hq]
  rfl

theorem processNextJob_eq_pop (r : QueueState) (c : Nat) (rest : List Nat)
    (hg : r.isProcessing = false) (hq : r.jobQueue = c :: rest) :
    processNextJob r = (popState r c rest, [Event.started c]) := by
  unfold processNextJob popState
  rw [hg, hq]
  rfl

theorem processNextJob_inv (r : QueueState) (evs : List Event) (m : Nat)
    (h : ReadyInv r evs m) :
    QueueInv (processNextJob r).1 (evs ++ (processNextJob r).2) := by
  rcases hq : r.jobQueue with _ | ⟨c₀, rest⟩
  · rw [processNextJob_eq_nil r h.guard_clear hq]
    have hm : m = r.jobIdCounter := by
      have hqe := h.queue_eq
      rw [hq] at hqe
      have hnil := List.range'_eq_nil.mp hqe.symm
      have := h.m_le
      omega
    have hcc : contCtr r = r.jobIdCounter := by
      unfold contCtr
      rw [h.cont_idle]
    have hfc : finishedCount r = r.jobIdCounter := by
      unfold finishedCount
      rw [h.cont_idle]
    have htsc : terminalStoreCount r = min r.jobIdCounter 50 := by
      unfold terminalStoreCount
      rw [h.cont_idle]
    refine ⟨?_, ?_, ?_, ?_, ?_, ?_, ?_, ?_, ?_, ?_, ?_, ?_, ?_, ?_, ?_, ?_, ?_, ?_, ?_, ?_, ?_⟩
    all_goals dsimp only
    · rw [hcc]
    · exact Or.inl h.cont_idle
    · rw [List.append_nil, hcc, ← hm]
      exact h.started_eq
    · rw [List.append_nil]
      exact h.submitted_eq
    · rw [hcc, hq]
      have he : r.jobIdCounter - r.jobIdCounter = 0 := by omega
      rw [he]
      rfl
    · rw [h.guard_clear, h.cont_idle]
      rfl
    · rw [h.current_none, h.cont_idle]
      rfl
    · exact h.ctrs_bounds
    · exact h.ctrs_sorted
    · intro j hj
      rw [hcc, ← hm]
      exact h.status_queued j hj
    · intro j hj
      rw [h.cont_idle]
      constructor
      · intro hp
        exact absurd hp (h.no_processing j hj)
      · intro hc
        exact absurd hc (by simp)
    · intro c hc
      rw [hq] at hc
      exact absurd hc (by simp)
    · intro c hc
      rw [h.current_none] at hc
      exact absurd hc (by simp)
    · intro c e hc
      rw [h.cont_idle] at hc
      exact absurd hc (by simp)
    · intro j hj
      rw [List.append_nil]
      exact h.url_flag j hj
    · intro c
      rw [List.append_nil, hfc, ← hm]
      exact h.terminal_counts c
    · intro c b hcb
      rw [List.append_nil] at hcb ⊢
      exact h.attempt_eq c b hcb
    · intro c hc
      rw [List.append_nil]
      exact h.attempt_fresh c hc
    · exact h.timestamps
    · rw [htsc, ← hm]
      exact h.store_count
    · exact h.error_none
  · have hmS : m < r.jobIdCounter := by
      have hqe := h.queue_eq
      rw [hq] at hqe
      by_contra hcon
      have hz : r.jobIdCounter - m = 0 := by
        have := h.m_le
        omega
      rw [hz] at hqe
      exact absurd hqe.symm (by simp)
    have hq2 : r.jobQueue = (m + 1) :: List.range' (m + 2) (r.jobIdCounter - m - 1) := by
      rw [h.queue_eq]
      have he : r.jobIdCounter - m = (r.jobIdCounter - m - 1) + 1 := by omega
      rw [he]
      rfl
    have hc₀ : c₀ = m + 1 := by
      rw [hq] at hq2
      exact ((List.cons.injEq _ _ _ _).mp hq2).1
    have hrest : rest = List.range' (m + 2) (r.jobIdCounter - m - 1) := by
      rw [hq] at hq2
      exact ((List.cons.injEq _ _ _ _).mp hq2).2
    subst hc₀
    rw [processNextJob_eq_pop r (m + 1) rest h.guard_clear hq]
    obtain ⟨j₀, hj₀mem, hj₀ctr⟩ := h.queue_mem (m + 1) (by
      rw [hq2]
      exact List.mem_cons_self _ _)
    have hj₀queued : j₀.status = JobStatus.queued := by
      rw [h.status_queued j₀ hj₀mem, hj₀ctr]
      omega
    obtain ⟨l₁, l₂, hdecomp, hupdate, hl₁, hl₂⟩ :=
      updateJobRecord_decomp r.allJobs (m + 1)
        (fun j => { j with status := JobStatus.processing, startedAt := some r.now })
        j₀ h.ctrs_sorted hj₀mem hj₀ctr
    have hmem_cases : ∀ j, j ∈ updateJobRecord r.allJobs (m + 1)
        (fun j => { j with status := JobStatus.processing, startedAt := some r.now }) →
        (j ∈ l₁ ∨ j ∈ l₂) ∨
        j = { j₀ with status := JobStatus.processing, startedAt := some r.now } := by
      intro j hj
      rw [hupdate] at hj
      rcases List.mem_append.mp hj with hj | hj
      · exact Or.inl (Or.inl hj)
      · rcases List.mem_cons.mp hj with hj | hj
        · exact Or.inr hj
        · exact Or.inl (Or.inr hj)
    have hold_mem : ∀ j, (j ∈ l₁ ∨ j ∈ l₂) → j ∈ r.allJobs := by
      intro j hj
      rw [hdecomp]
      rcases hj with hj | hj
      · exact List.mem_append.mpr (Or.inl hj)
      · exact List.mem_append.mpr (Or.inr (List.mem_cons_of_mem _ hj))
    have hstartedevs : startedCtrs (evs ++ [Event.started (m + 1)]) =
        List.range' 1 (m + 1) := by
      rw [startedCtrs_append, startedCtrs_started, h.started_eq, range'_one_snoc]
    refine ⟨?_, ?_, ?_, ?_, ?_, ?_, ?_, ?_, ?_, ?_, ?_, ?_, ?_, ?_, ?_, ?_, ?_, ?_, ?_, ?_, ?_⟩
    all_goals dsimp only [popState, contCtr, finishedCount, terminalStoreCount,
      contBusy, contCurrent]
    · omega
    · exact Or.inr (by omega)
    · exact hstartedevs
    · rw [submittedCtrs_append, submittedCtrs_started, List.append_nil]
      exact h.submitted_eq
    · rw [hrest]
      have he : r.jobIdCounter - m - 1 = r.jobIdCounter - (m + 1) := by omega
      rw [he]
      try rfl
    · intro j hj
      rcases hmem_cases j hj with hjo | hjo
      · exact h.ctrs_bounds j (hold_mem j hjo)
      · rw [hjo]
        exact h.ctrs_bounds j₀ hj₀mem
    · have hps := h.ctrs_sorted
      rw [hdecomp] at hps
      rw [hupdate]
      exact pairwise_update_middle l₁ l₂ j₀ _ rfl hps
    · intro j hj
      rcases hmem_cases j hj with hjo | hjo
      · have hmem := hold_mem j hjo
        have hiff := h.status_queued j hmem
        rcases hjo with hjo | hjo
        · have := hl₁ j hjo
          constructor
          · intro hqd
            have := hiff.mp hqd
            omega
          · intro hlt
            omega
        · have := hl₂ j hjo
          constructor
          · intro _
            omega
          · intro _
            exact hiff.mpr (by omega)
      · rw [hjo]
        constructor
        · intro hqd
          exact absurd hqd (by simp)
        · intro hlt
          dsimp only at hlt
          rw [hj₀ctr] at hlt
          omega
    · intro j hj
      rcases hmem_cases j hj with hjo | hjo
      · have hmem := hold_mem j hjo
        constructor
        · intro hp
          exact absurd hp (h.no_processing j hmem)
        · intro hc
          have hinj : m + 1 = j.ctr := by
            injection hc
          rcases hjo with hjo | hjo
          · have := hl₁ j hjo
            omega
          · have := hl₂ j hjo
            omega
      · rw [hjo]
        constructor
        · intro _
          dsimp only
          rw [hj₀ctr]
        · intro _
          rfl
    · intro c hc
      have hcrest : c ∈ rest := hc
      have hcold : c ∈ r.jobQueue := by
        rw [hq]
        exact List.mem_cons_of_mem _ hcrest
      obtain ⟨j, hjmem, hjctr⟩ := h.queue_mem c hcold
      have hcbig : m + 2 ≤ c := by
        rw [hrest] at hcrest
        have := (List.mem_range'_1.mp hcrest).1
        omega
      rw [hdecomp] at hjmem
      rcases List.mem_append.mp hjmem with hjm | hjm
      · exact ⟨j, by rw [hupdate]; exact List.mem_append.mpr (Or.inl hjm), hjctr⟩
      · rcases List.mem_cons.mp hjm with hjm | hjm
        · rw [hjm, hj₀ctr] at hjctr
          omega
        · refine ⟨j, ?_, hjctr⟩
          rw [hupdate]
          exact List.mem_append.mpr (Or.inr (List.mem_cons_of_mem _ hjm))
    · intro c hc
      have hce : c = m + 1 := by
        injection hc with hc2
        exact hc2.symm
      subst hce
      refine ⟨{ j₀ with status := JobStatus.processing, startedAt := some r.now }, ?_, hj₀ctr⟩
      rw [hupdate]
      exact List.mem_append.mpr (Or.inr (List.mem_cons_self _ _))
    · intro c e hc
      exact absurd hc (by simp)
    · intro j hj
      rcases hmem_cases j hj with hjo | hjo
      · exact List.mem_append.mpr (Or.inl (h.url_flag j (hold_mem j hjo)))
      · rw [hjo]
        exact List.mem_append.mpr (Or.inl (h.url_flag j₀ hj₀mem))
    · intro c
      rw [terminalCount_append, terminalCount_singleton, h.terminal_counts c]
      rw [show (isTerminalEvFor c (Event.started (m + 1))) = false from rfl]
      simp only [Bool.false_eq_true, if_false]
      split_ifs <;> omega
    · intro c b hcb
      have hcb2 : Event.submitted c b ∈ evs := by
        rcases List.mem_append.mp hcb with hx | hx
        · exact hx
        · rcases List.mem_cons.mp hx with hx | hx
          · exact absurd hx (by simp)
          · exact absurd hx (by simp)
      rw [attemptCount_append, attemptCount_singleton, terminalCount_append,
        terminalCount_singleton]
      rw [show (isAttemptFor c (Event.started (m + 1))) = false from rfl]
      rw [show (isTerminalEvFor c (Event.started (m + 1))) = false from rfl]
      rw [h.attempt_eq c b hcb2]
      cases b <;> simp
    · intro c hc
      rw [attemptCount_append, attemptCount_singleton]
      rw [show (isAttemptFor c (Event.started (m + 1))) = false from rfl]
      rw [h.attempt_fresh c hc]
      simp
    · intro j hj
      rcases hmem_cases j hj with hjo | hjo
      · exact h.timestamps j (hold_mem j hjo)
      · rw [hjo]
        constructor
        · intro _
          rfl
        · intro hterm
          exact absurd hterm (by simp [isTerminal])
    · rw [hupdate]
      have hflm := filter_length_middle l₁ l₂ j₀
        { j₀ with status := JobStatus.processing, startedAt := some r.now }
        (fun j => isTerminal j.status)
      have hj₀nt : (isTerminal j₀.status) = false := by
        rw [hj₀queued]
        rfl
      rw [hj₀nt] at hflm
      have hupdnt : isTerminal ({ j₀ with status := JobStatus.processing, startedAt := some r.now } : Job).status = false := rfl
      rw [hupdnt] at hflm
      simp only [Bool.false_eq_true, if_false] at hflm
      have hsc := h.store_count
      rw [hdecomp] at hsc
      omega
    · intro j hj
      rcases hmem_cases j hj with hjo | hjo
      · exact h.error_none j (hold_mem j hjo)
      · rw [hjo]
        intro _
        exact h.error_none j₀ hj₀mem (by rw [hj₀queued]; rfl)

theorem filterMap_nodup_unique {α β : Type} (f : α → Option β) :
    ∀ (l : List α), (l.filterMap f).Nodup →
      ∀ e₁ ∈ l, ∀ e₂ ∈ l, ∀ x, f e₁ = some x → f e₂ = some x → e₁ = e₂ := by
  intro l
  induction l with
  | nil =>
    intro _ e₁ h₁
    simp at h₁
  | cons a t ih =>
    intro hnd e₁ h₁ e₂ h₂ x hf₁ hf₂
    have hnd_t : (t.filterMap f).Nodup := by
      rcases hfa : f a with _ | y
      · rw [List.filterMap_cons_none hfa] at hnd
        exact hnd
      · rw [List.filterMap_cons_some hfa] at hnd
        exact hnd.of_cons
    rcases List.mem_cons.mp h₁ with h₁ | h₁ <;> rcases List.mem_cons.mp h₂ with h₂ | h₂
    · rw [h₁, h₂]
    · exfalso
      rw [h₁] at hf₁
      rw [List.filterMap_cons_some hf₁] at hnd
      have hx : x ∈ t.filterMap f := List.mem_filterMap.mpr ⟨e₂, h₂, hf₂⟩
      exact (List.nodup_cons.mp hnd).1 hx
    · exfalso
      rw [h₂] at hf₂
      rw [List.filterMap_cons_some hf₂] at hnd
      have hx : x ∈ t.filterMap f := List.mem_filterMap.mpr ⟨e₁, h₁, hf₁⟩
      exact (List.nodup_cons.mp hnd).1 hx
    · exact ih hnd_t e₁ h₁ e₂ h₂ x hf₁ hf₂

/-- A counter is submitted with a single webhook flag. -/
theorem submitted_flag_unique (evs : List Event) (S : Nat)
    (hsub : submittedCtrs evs = List.range' 1 S) (c : Nat) (b₁ b₂ : Bool)
    (h₁ : Event.submitted c b₁ ∈ evs) (h₂ : Event.submitted c b₂ ∈ evs) : b₁ = b₂ := by
  have hnd : (submittedCtrs evs).Nodup := by
    rw [hsub]
    exact List.nodup_range' 1 S
  have := filterMap_nodup_unique submittedCtr evs hnd
    (Event.submitted c b₁) h₁ (Event.submitted c b₂) h₂ c rfl rfl
  injection this

/-- The invariant does not mention the clock. -/
theorem queueInv_set_now (s : QueueState) (evs : List Event) (t : Nat)
    (h : QueueInv s evs) : QueueInv { s with now := t } evs :=
  ⟨h.counter_ge, h.cont_pos, h.started_eq, h.submitted_eq, h.queue_eq, h.guard_eq,
   h.current_eq, h.ctrs_bounds, h.ctrs_sorted, h.status_queued, h.status_processing,
   h.queue_mem, h.current_mem, h.webhook_align, h.url_flag, h.terminal_counts,
   h.attempt_eq, h.attempt_fresh, h.timestamps, h.store_count, h.error_none⟩

/-- Settling the caller and running the `finally` block from a mid-completion
state restores the full invariant. -/
theorem finishJob_inv (s : QueueState) (evs : List Event) (m : Nat) (err : Option String)
    (h : MidInv s evs m) :
    QueueInv (finishJob s m err).1 (evs ++ (finishJob s m err).2) := by
  have hcaller : ∃ callerEv : Event,
      finishJob s m err = ((processNextJob (cleanupOldJobs
        { s with currentJob := none, isProcessing := false, cont := DrainCont.idle })).1,
        callerEv :: (processNextJob (cleanupOldJobs
        { s with currentJob := none, isProcessing := false, cont := DrainCont.idle })).2) ∧
      startedCtr callerEv = none ∧ submittedCtr callerEv = none ∧
      (∀ c, isTerminalEvFor c callerEv = false) ∧
      (∀ c, isAttemptFor c callerEv = false) := by
    rcases err with _ | msg
    · exact ⟨Event.resolvedCaller m, rfl, rfl, rfl, fun c => rfl, fun c => rfl⟩
    · exact ⟨Event.rejectedCaller m msg, rfl, rfl, rfl, fun c => rfl, fun c => rfl⟩
  obtain ⟨callerEv, heq, hst, hsub, hterm, hatt⟩ := hcaller
  rw [heq]
  have hassoc : evs ++ (callerEv :: (processNextJob (cleanupOldJobs
      { s with currentJob := none, isProcessing := false, cont := DrainCont.idle })).2) =
      (evs ++ [callerEv]) ++ (processNextJob (cleanupOldJobs
      { s with currentJob := none, isProcessing := false, cont := DrainCont.idle })).2 := by
    rw [List.append_assoc]
    rfl
  rw [hassoc]
  apply processNextJob_inv _ _ m
  have hsubl : (cleanupJobs s.allJobs).Sublist s.allJobs := cleanupJobs_sublist s.allJobs
  have hmm : ∀ j, j ∈ cleanupJobs s.allJobs → j ∈ s.allJobs := fun j hj => hsubl.mem hj
  have hstarted1 : startedCtrs (evs ++ [callerEv]) = List.range' 1 m := by
    rw [startedCtrs_append, h.started_eq]
    have : startedCtrs [callerEv] = [] := by
      unfold startedCtrs
      rw [List.filterMap_cons_none hst]
      rfl
    rw [this, List.append_nil]
  have hsubmitted1 : submittedCtrs (evs ++ [callerEv]) =
      List.range' 1 s.jobIdCounter := by
    rw [submittedCtrs_append, h.submitted_eq]
    have : submittedCtrs [callerEv] = [] := by
      unfold submittedCtrs
      rw [List.filterMap_cons_none hsub]
      rfl
    rw [this, List.append_nil]
  have hterm1 : ∀ c, terminalCount (evs ++ [callerEv]) c = terminalCount evs c := by
    intro c
    rw [terminalCount_append, terminalCount_singleton, hterm c]
    simp
  have hatt1 : ∀ c, attemptCount (evs ++ [callerEv]) c = attemptCount evs c := by
    intro c
    rw [attemptCount_append, attemptCount_singleton, hatt c]
    simp
  have hsubmem : ∀ c b, Event.submitted c b ∈ evs ++ [callerEv] →
      Event.submitted c b ∈ evs := by
    intro c b hcb
    rcases List.mem_append.mp hcb with hx | hx
    · exact hx
    · exfalso
      rcases List.mem_cons.mp hx with hx | hx
      · rw [← hx] at hsub
        exact absurd hsub (by simp [submittedCtr])
      · exact absurd hx (by simp)
  refine ⟨rfl, rfl, rfl, h.m_le, hstarted1, hsubmitted1, h.queue_eq, ?_, ?_, ?_, ?_, ?_,
    ?_, ?_, ?_, ?_, ?_, ?_, ?_⟩
  · intro j hj
    exact h.ctrs_bounds j (hmm j hj)
  · exact h.ctrs_sorted.sublist hsubl
  · intro j hj
    exact h.status_queued j (hmm j hj)
  · intro j hj
    exact h.no_processing j (hmm j hj)
  · intro c hc
    obtain ⟨j, hjmem, hjctr⟩ := h.queue_mem c hc
    have hcm : m < c := by
      have := h.queue_eq
      rw [this] at hc
      have := (List.mem_range'_1.mp hc).1
      omega
    have hqd : j.status = JobStatus.queued := by
      rw [h.status_queued j hjmem, hjctr]
      omega
    refine ⟨j, ?_, hjctr⟩
    exact cleanupJobs_keeps_nonterminal s.allJobs h.ctrs_sorted j hjmem
      (by rw [hqd]; rfl)
  · intro j hj
    exact List.mem_append.mpr (Or.inl (h.url_flag j (hmm j hj)))
  · intro c
    rw [hterm1 c]
    exact h.terminal_counts c
  · intro c b hcb
    rw [hatt1 c, hterm1 c]
    exact h.attempt_eq c b (hsubmem c b hcb)
  · intro c hc
    rw [hatt1 c]
    exact h.attempt_fresh c hc
  · intro j hj
    exact h.timestamps j (hmm j hj)
  · have hcl := cleanupJobs_terminal_count s.allJobs h.ctrs_sorted
    have hsc := h.store_count
    show ((cleanupJobs s.allJobs).filter fun j => isTerminal j.status).length = min m 50
    rw [hcl, hsc]
    have hm1 := h.m_pos
    omega
  · intro j hj
    exact h.error_none j (hmm j hj)

theorem settleProcess_ok_pos (s : QueueState) (c : Nat) (rs : List TaskResult)
    (hw : jobWebhookSet (completeState s c rs) c = true) :
    settleProcess s c (Except.ok rs) =
      ({ completeState s c rs with cont := DrainCont.awaitingWebhook c none },
        [Event.jobCompleted c, Event.webhookAttempt c]) := by
  unfold settleProcess
  dsimp only
  rw [hw]
  rfl

theorem settleProcess_ok_neg (s : QueueState) (c : Nat) (rs : List TaskResult)
    (hw : jobWebhookSet (completeState s c rs) c = false) :
    settleProcess s c (Except.ok rs) =
      ((finishJob (completeState s c rs) c none).1,
        Event.jobCompleted c :: (finishJob (completeState s c rs) c none).2) := by
  unfold settleProcess
  dsimp only
  rw [hw]
  rfl

theorem settleProcess_err_pos (s : QueueState) (c : Nat) (msg : String)
    (hw : jobWebhookSet (failState s c msg) c = true) :
    settleProcess s c (Except.error msg) =
      ({ failState s c msg with cont := DrainCont.awaitingWebhook c (some msg) },
        [Event.jobFailed c, Event.webhookAttempt c]) := by
  unfold settleProcess
  dsimp only
  rw [hw]
  rfl

theorem settleProcess_err_neg (s : QueueState) (c : Nat) (msg : String)
    (hw : jobWebhookSet (failState s c msg) c = false) :
    settleProcess s c (Except.error msg) =
      ((finishJob (failState s c msg) c (some msg)).1,
        Event.jobFailed c :: (finishJob (failState s c msg) c (some msg)).2) := by
  unfold settleProcess
  dsimp only
  rw [hw]
  rfl

/-- The store-and-stats part of the settlement update, shared by the
resolution and rejection paths: mutate the current job's record in place and
replace the statistics counters. -/
def settledState (s : QueueState) (c : Nat) (upd : Job → Job) (stats' : QueueStatsCounters) : QueueState :=
  { s with allJobs := updateJobRecord s.allJobs c upd, stats := stats' }

/-- Core of the settlement step: replacing the processing job by a terminal
record and emitting its terminal event.  Both continuations of the drain
loop — awaiting the webhook when the url is set, or finishing directly when
it is not — preserve the invariant. -/
theorem settleUpdate_inv (s : QueueState) (evs : List Event) (c : Nat)
    (upd : Job → Job) (stats' : QueueStatsCounters) (termEv : Event) (e : Option String)
    (h : QueueInv s evs) (hc : s.cont = DrainCont.awaitingProcess c)
    (hupd_ctr : ∀ j, (upd j).ctr = j.ctr)
    (hupd_url : ∀ j, (upd j).webhookUrl = j.webhookUrl)
    (hupd_started : ∀ j, (upd j).startedAt = j.startedAt)
    (hupd_status : ∀ j, (upd j).status = (match e with
      | none => JobStatus.completed
      | some _ => JobStatus.failed))
    (hupd_err : ∀ j, j.error = none → (upd j).error = e)
    (hupd_completed : ∀ j, ((upd j).completedAt).isSome = true)
    (htermEv : ∀ x, isTerminalEvFor x termEv = (c == x))
    (hst : startedCtr termEv = none) (hsb : submittedCtr termEv = none)
    (hatp : ∀ x, isAttemptFor x termEv = false) :
    (jobWebhookSet (settledState s c upd stats') c = true →
      QueueInv { settledState s c upd stats' with cont := DrainCont.awaitingWebhook c e }
        (evs ++ [termEv, Event.webhookAttempt c])) ∧
    (jobWebhookSet (settledState s c upd stats') c = false →
      QueueInv (finishJob (settledState s c upd stats') c e).1
        (evs ++ termEv :: (finishJob (settledState s c upd stats') c e).2)) := by
  have hctr : contCtr s = c := by
    unfold contCtr
    rw [hc]
  have hfin : finishedCount s = c - 1 := by
    unfold finishedCount
    rw [hc]
  have hcpos : 1 ≤ c := by
    rcases h.cont_pos with h0 | h0
    · rw [hc] at h0
      exact absurd h0 (by simp)
    · rw [hctr] at h0
      exact h0
  have hcS : c ≤ s.jobIdCounter := by
    rw [← hctr]
    exact h.counter_ge
  have hcur : s.currentJob = some c := by
    have hce := h.current_eq
    rw [hc] at hce
    exact hce
  obtain ⟨j₀, hj₀mem, hj₀ctr⟩ := h.current_mem c hcur
  have hj₀proc : j₀.status = JobStatus.processing := by
    refine (h.status_processing j₀ hj₀mem).mpr ?_
    rw [hc, hj₀ctr]
  have hj₀err : j₀.error = none :=
    h.error_none j₀ hj₀mem (by rw [hj₀proc]; rfl)
  have hj₀start : j₀.startedAt.isSome = true :=
    (h.timestamps j₀ hj₀mem).1 (by rw [hj₀proc]; simp)
  obtain ⟨l₁, l₂, hdecomp, hupdate, hl₁, hl₂⟩ :=
    updateJobRecord_decomp s.allJobs c upd j₀ h.ctrs_sorted hj₀mem hj₀ctr
  have hps' : List.Pairwise (fun a b => a.ctr < b.ctr)
      (updateJobRecord s.allJobs c upd) := by
    rw [hupdate]
    have hps := h.ctrs_sorted
    rw [hdecomp] at hps
    exact pairwise_update_middle l₁ l₂ j₀ (upd j₀) (hupd_ctr j₀).symm hps
  have hmemupd : upd j₀ ∈ updateJobRecord s.allJobs c upd := by
    rw [hupdate]
    exact List.mem_append.mpr (Or.inr (List.mem_cons_self _ _))
  have hlook : lookupJob (settledState s c upd stats') c = some (upd j₀) := by
    refine lookupJob_eq_some _ c (upd j₀) hps' hmemupd ?_
    rw [hupd_ctr j₀]
    exact hj₀ctr
  have hwbs : jobWebhookSet (settledState s c upd stats') c = j₀.webhookUrl.isSome := by
    unfold jobWebhookSet
    rw [hlook]
    show (upd j₀).webhookUrl.isSome = j₀.webhookUrl.isSome
    rw [hupd_url j₀]
  have hupdstat : isTerminal (upd j₀).status = true := by
    rw [hupd_status j₀]
    cases e <;> rfl
  have hupd_nq : (upd j₀).status ≠ JobStatus.queued := by
    intro hq
    rw [hq] at hupdstat
    exact absurd hupdstat (by decide)
  have hupd_np : (upd j₀).status ≠ JobStatus.processing := by
    intro hq
    rw [hq] at hupdstat
    exact absurd hupdstat (by decide)
  have hmemU : ∀ j, j ∈ updateJobRecord s.allJobs c upd →
      j = upd j₀ ∨ (j ∈ s.allJobs ∧ j.ctr ≠ c) := by
    intro j hj
    rw [hupdate] at hj
    rcases List.mem_append.mp hj with hj | hj
    · right
      refine ⟨by rw [hdecomp]; exact List.mem_append.mpr (Or.inl hj), ?_⟩
      have := hl₁ j hj
      omega
    · rcases List.mem_cons.mp hj with hj | hj
      · left
        exact hj
      · right
        refine ⟨?_, ?_⟩
        · rw [hdecomp]
          exact List.mem_append.mpr (Or.inr (List.mem_cons_of_mem _ hj))
        · have := hl₂ j hj
          omega
  have hkeep : ∀ j ∈ s.allJobs, j.ctr ≠ c → j ∈ updateJobRecord s.allJobs c upd := by
    intro j hj hne
    unfold updateJobRecord
    refine List.mem_map.mpr ⟨j, hj, ?_⟩
    rw [if_neg hne]
  have hboundsU : ∀ j ∈ updateJobRecord s.allJobs c upd,
      1 ≤ j.ctr ∧ j.ctr ≤ s.jobIdCounter := by
    intro j hj
    rcases hmemU j hj with hj | ⟨hj, _⟩
    · rw [hj, hupd_ctr j₀]
      exact h.ctrs_bounds j₀ hj₀mem
    · exact h.ctrs_bounds j hj
  have hstatqU : ∀ j ∈ updateJobRecord s.allJobs c upd,
      (j.status = JobStatus.queued ↔ c < j.ctr) := by
    intro j hj
    rcases hmemU j hj with hj | ⟨hj, hne⟩
    · rw [hj]
      constructor
      · intro hq
        exact absurd hq hupd_nq
      · intro hlt
        rw [hupd_ctr j₀, hj₀ctr] at hlt
        omega
    · have := h.status_queued j hj
      rw [hctr] at this
      exact this
  have hnoprocU : ∀ j ∈ updateJobRecord s.allJobs c upd,
      j.status ≠ JobStatus.processing := by
    intro j hj
    rcases hmemU j hj with hj | ⟨hj, hne⟩
    · rw [hj]
      exact hupd_np
    · intro hp
      have := (h.status_processing j hj).mp hp
      rw [hc] at this
      have : c = j.ctr := by injection this
      exact hne this.symm
  have hqmemU : ∀ x ∈ s.jobQueue, ∃ j ∈ updateJobRecord s.allJobs c upd, j.ctr = x := by
    intro x hx
    obtain ⟨j, hj, hjc⟩ := h.queue_mem x hx
    have hx2 : x ∈ List.range' (c + 1) (s.jobIdCounter - c) := by
      have hqe := h.queue_eq
      rw [hctr] at hqe
      rw [← hqe]
      exact hx
    have hcx : c < x := by
      have := (List.mem_range'_1.mp hx2).1
      omega
    exact ⟨j, hkeep j hj (by omega), hjc⟩
  have hurlU : ∀ j ∈ updateJobRecord s.allJobs c upd,
      Event.submitted j.ctr j.webhookUrl.isSome ∈ evs := by
    intro j hj
    rcases hmemU j hj with hj | ⟨hj, _⟩
    · rw [hj, hupd_ctr j₀, hupd_url j₀]
      exact h.url_flag j₀ hj₀mem
    · exact h.url_flag j hj
  have htimesU : ∀ j ∈ updateJobRecord s.allJobs c upd,
      (j.status ≠ JobStatus.queued → j.startedAt.isSome = true) ∧
      (isTerminal j.status = true → j.completedAt.isSome = true) := by
    intro j hj
    rcases hmemU j hj with hj | ⟨hj, _⟩
    · rw [hj]
      exact ⟨fun _ => by rw [hupd_started j₀]; exact hj₀start,
        fun _ => hupd_completed j₀⟩
    · exact h.timestamps j hj
  have herrU : ∀ j ∈ updateJobRecord s.allJobs c upd,
      isTerminal j.status = false → j.error = none := by
    intro j hj hnt
    rcases hmemU j hj with hj | ⟨hj, _⟩
    · rw [hj] at hnt
      rw [hupdstat] at hnt
      exact absurd hnt (by decide)
    · exact h.error_none j hj hnt
  have hstore1 : ((updateJobRecord s.allJobs c upd).filter
      fun j => isTerminal j.status).length = min (c - 1) 50 + 1 := by
    have hfm := filter_length_middle l₁ l₂ j₀ (upd j₀) (fun j => isTerminal j.status)
    have hpj₀ : isTerminal j₀.status = false := by
      rw [hj₀proc]
      rfl
    have hold := h.store_count
    have htsc : terminalStoreCount s = min (c - 1) 50 := by
      unfold terminalStoreCount
      rw [hc]
    rw [htsc, hdecomp] at hold
    rw [hupdate]
    rw [hpj₀, hupdstat] at hfm
    rw [if_neg (by decide), if_pos rfl] at hfm
    omega
  have hurlc : Event.submitted c j₀.webhookUrl.isSome ∈ evs := by
    have := h.url_flag j₀ hj₀mem
    rw [hj₀ctr] at this
    exact this
  have hflag : ∀ b, Event.submitted c b ∈ evs → b = j₀.webhookUrl.isSome :=
    fun b hb => submitted_flag_unique evs s.jobIdCounter h.submitted_eq c b _ hb hurlc
  have htc0 : terminalCount evs c = 0 := by
    rw [h.terminal_counts c, hfin]
    split_ifs with hcond
    · omega
    · rfl
  have hatt0 : attemptCount evs c = 0 := by
    have hx := h.attempt_eq c j₀.webhookUrl.isSome hurlc
    rw [htc0, ite_self] at hx
    exact hx
  have hstarted1 : startedCtrs (evs ++ [termEv]) = List.range' 1 c := by
    rw [startedCtrs_append, h.started_eq, hctr]
    have hnone : startedCtrs [termEv] = [] := by
      unfold startedCtrs
      rw [List.filterMap_cons_none hst]
      rfl
    rw [hnone, List.append_nil]
  have hsubmitted1 : submittedCtrs (evs ++ [termEv]) =
      List.range' 1 s.jobIdCounter := by
    rw [submittedCtrs_append, h.submitted_eq]
    have hnone : submittedCtrs [termEv] = [] := by
      unfold submittedCtrs
      rw [List.filterMap_cons_none hsb]
      rfl
    rw [hnone, List.append_nil]
  have htermc : ∀ x, terminalCount (evs ++ [termEv]) x =
      if 1 ≤ x ∧ x ≤ c then 1 else 0 := by
    intro x
    rw [terminalCount_append, terminalCount_singleton, htermEv x,
      h.terminal_counts x, hfin]
    rcases eq_or_ne c x with hx | hx
    · have hb : (c == x) = true := by simp [hx]
      rw [hb, show (if true = true then (1:Nat) else 0) = 1 from rfl]
      subst hx
      split_ifs <;> omega
    · have hb : (c == x) = false := by simp [hx]
      rw [hb, show (if false = true then (1:Nat) else 0) = 0 from rfl]
      split_ifs <;> omega
  have hattc1 : ∀ x, attemptCount (evs ++ [termEv]) x = attemptCount evs x := by
    intro x
    rw [attemptCount_append, attemptCount_singleton, hatp x]
    simp
  have hsubmem1 : ∀ x b, Event.submitted x b ∈ evs ++ [termEv] →
      Event.submitted x b ∈ evs := by
    intro x b hxb
    rcases List.mem_append.mp hxb with hx | hx
    · exact hx
    · exfalso
      rcases List.mem_cons.mp hx with hx | hx
      · rw [← hx] at hsb
        exact absurd hsb (by simp [submittedCtr])
      · exact absurd hx (by simp)
  have htermNe : ∀ x, x ≠ c →
      terminalCount (evs ++ [termEv]) x = terminalCount evs x := by
    intro x hx
    rw [htermc x, h.terminal_counts x, hfin]
    split_ifs <;> omega
  constructor
  · intro hw
    have hpos : j₀.webhookUrl.isSome = true := by
      rw [hwbs] at hw
      exact hw
    have hass : evs ++ [termEv, Event.webhookAttempt c] =
        (evs ++ [termEv]) ++ [Event.webhookAttempt c] := by
      rw [List.append_assoc]
      rfl
    rw [hass]
    have hstarted2 : startedCtrs ((evs ++ [termEv]) ++ [Event.webhookAttempt c]) =
        List.range' 1 c := by
      rw [startedCtrs_append, hstarted1]
      show List.range' 1 c ++ ([] : List Nat) = List.range' 1 c
      exact List.append_nil _
    have hsubmitted2 : submittedCtrs ((evs ++ [termEv]) ++ [Event.webhookAttempt c]) =
        List.range' 1 s.jobIdCounter := by
      rw [submittedCtrs_append, hsubmitted1]
      show List.range' 1 s.jobIdCounter ++ ([] : List Nat) = List.range' 1 s.jobIdCounter
      exact List.append_nil _
    have htermc2 : ∀ x, terminalCount ((evs ++ [termEv]) ++ [Event.webhookAttempt c]) x =
        if 1 ≤ x ∧ x ≤ c then 1 else 0 := by
      intro x
      rw [terminalCount_append, terminalCount_singleton, htermc x]
      simp [isTerminalEvFor]
    have hattc2 : ∀ x, attemptCount ((evs ++ [termEv]) ++ [Event.webhookAttempt c]) x =
        attemptCount evs x + (if (c == x) = true then 1 else 0) := by
      intro x
      rw [attemptCount_append, attemptCount_singleton, hattc1 x]
      rfl
    have hsubmem2 : ∀ x b,
        Event.submitted x b ∈ (evs ++ [termEv]) ++ [Event.webhookAttempt c] →
        Event.submitted x b ∈ evs := by
      intro x b hxb
      rcases List.mem_append.mp hxb with hx | hx
      · exact hsubmem1 x b hx
      · exfalso
        rcases List.mem_cons.mp hx with hx | hx
        · exact Event.noConfusion hx
        · exact absurd hx (by simp)
    refine ⟨?_, ?_, hstarted2, hsubmitted2, ?_, ?_, ?_, hboundsU, hps', ?_, ?_, ?_,
      ?_, ?_, ?_, ?_, ?_, ?_, htimesU, ?_, herrU⟩
    · exact hcS
    · right
      exact hcpos
    · show s.jobQueue = List.range' (c + 1) (s.jobIdCounter - c)
      have hqe := h.queue_eq
      rw [hctr] at hqe
      exact hqe
    · show s.isProcessing = true
      have hge := h.guard_eq
      rw [hc] at hge
      exact hge
    · show s.currentJob = some c
      exact hcur
    · exact hstatqU
    · intro j hj
      constructor
      · intro hp
        exact absurd hp (hnoprocU j hj)
      · intro hcont
        exact absurd hcont (by simp)
    · exact hqmemU
    · intro x hx
      have hx2 : s.currentJob = some x := hx
      rw [hcur] at hx2
      have hxc : x = c := by
        injection hx2 with hh
        exact hh.symm
      subst hxc
      exact ⟨upd j₀, hmemupd, by rw [hupd_ctr j₀]; exact hj₀ctr⟩
    · intro x e' hcont
      have hcont2 : DrainCont.awaitingWebhook c e = DrainCont.awaitingWebhook x e' := hcont
      injection hcont2 with h1 h2
      subst h1
      subst h2
      refine ⟨upd j₀, hmemupd, by rw [hupd_ctr j₀]; exact hj₀ctr, ?_, ?_, ?_⟩
      · rw [hupd_url j₀]
        exact hpos
      · exact hupd_err j₀ hj₀err
      · exact hupd_status j₀
    · intro j hj
      exact List.mem_append.mpr (Or.inl (List.mem_append.mpr (Or.inl (hurlU j hj))))
    · intro x
      rw [htermc2 x]
      rfl
    · intro x b hxb
      have hxbe := hsubmem2 x b hxb
      rw [hattc2 x, htermc2 x]
      rcases eq_or_ne x c with hx | hx
      · subst hx
        have hb : b = true := by
          rw [hflag b hxbe, hpos]
        subst hb
        have e1 : (if (x == x) = true then (1:Nat) else 0) = 1 := by simp
        have e2 : (if 1 ≤ x ∧ x ≤ x then (1:Nat) else 0) = 1 := by
          rw [if_pos ⟨hcpos, Nat.le_refl x⟩]
        rw [hatt0, e1, e2]
        rfl
      · have hb : (c == x) = false := by simp [hx.symm]
        rw [hb, show (if false = true then (1:Nat) else 0) = 0 from rfl]
        rw [h.attempt_eq x b hxbe]
        rcases b with _ | _
        · simp
        · show terminalCount evs x + 0 = if 1 ≤ x ∧ x ≤ c then 1 else 0
          rw [h.terminal_counts x, hfin]
          split_ifs <;> omega
    · intro x hx
      have hx2 : s.jobIdCounter < x := hx
      rw [hattc2 x]
      rw [h.attempt_fresh x hx2, if_neg (by simp; omega)]
    · show ((updateJobRecord s.allJobs c upd).filter
        fun j => isTerminal j.status).length = min (c - 1) 50 + 1
      exact hstore1
  · intro hw
    have hneg : j₀.webhookUrl.isSome = false := by
      rw [hwbs] at hw
      exact hw
    have hass : evs ++ termEv :: (finishJob (settledState s c upd stats') c e).2 =
        (evs ++ [termEv]) ++ (finishJob (settledState s c upd stats') c e).2 := by
      rw [List.append_assoc]
      rfl
    rw [hass]
    apply finishJob_inv _ _ c e
    refine ⟨hcS, hcpos, hstarted1, hsubmitted1, ?_, hboundsU, hps', hstatqU, hnoprocU,
      hqmemU, ?_, htermc, ?_, ?_, htimesU, hstore1, herrU⟩
    · show s.jobQueue = List.range' (c + 1) (s.jobIdCounter - c)
      have hqe := h.queue_eq
      rw [hctr] at hqe
      exact hqe
    · intro j hj
      exact List.mem_append.mpr (Or.inl (hurlU j hj))
    · intro x b hxb
      have hxbe := hsubmem1 x b hxb
      rw [hattc1 x]
      rcases eq_or_ne x c with hx | hx
      · subst hx
        have hb : b = false := by
          rw [hflag b hxbe, hneg]
        subst hb
        rw [hatt0]
        rfl
      · rw [h.attempt_eq x b hxbe, htermNe x hx]
    · intro x hx
      rw [hattc1 x]
      exact h.attempt_fresh x hx

/-- Settling the processing callback while the drain loop is awaiting it
preserves the invariant, on both the resolution and the rejection path. -/
theorem settleProcess_inv (s : QueueState) (evs : List Event) (c : Nat)
    (res : Except String (List TaskResult))
    (h : QueueInv s evs) (hc : s.cont = DrainCont.awaitingProcess c) :
    QueueInv (settleProcess s c res).1 (evs ++ (settleProcess s c res).2) := by
  cases res with
  | ok rs =>
    have hcore := settleUpdate_inv s evs c
      (fun j => { j with status := JobStatus.completed, completedAt := some s.now, results := rs, recordingsCompleted := (rs.filter fun r => r.success).length, recordingsFailed := (rs.filter fun r => !r.success).length })
      { s.stats with jobsCompleted := s.stats.jobsCompleted + 1, recordingsProcessed := s.stats.recordingsProcessed + rs.length }
      (Event.jobCompleted c) none h hc
      (fun j => rfl) (fun j => rfl) (fun j => rfl) (fun j => rfl)
      (fun j hj => hj) (fun j => rfl) (fun x => rfl) rfl rfl (fun x => rfl)
    cases hw : jobWebhookSet (completeState s c rs) c with
    | false =>
      rw [settleProcess_ok_neg s c rs hw]
      exact hcore.2 hw
    | true =>
      rw [settleProcess_ok_pos s c rs hw]
      exact hcore.1 hw
  | error msg =>
    have hcore := settleUpdate_inv s evs c
      (fun j => { j with status := JobStatus.failed, completedAt := some s.now, error := some msg })
      { s.stats with jobsFailed := s.stats.jobsFailed + 1 }
      (Event.jobFailed c) (some msg) h hc
      (fun j => rfl) (fun j => rfl) (fun j => rfl) (fun j => rfl)
      (fun j _ => rfl) (fun j => rfl) (fun x => rfl) rfl rfl (fun x => rfl)
    cases hw : jobWebhookSet (failState s c msg) c with
    | false =>
      rw [settleProcess_err_neg s c msg hw]
      exact hcore.2 hw
    | true =>
      rw [settleProcess_err_pos s c msg hw]
      exact hcore.1 hw

theorem terminalCount_submitted (evs : List Event) (c : Nat) (b : Bool) (x : Nat) :
    terminalCount (evs ++ [Event.submitted c b]) x = terminalCount evs x := by
  rw [terminalCount_append, terminalCount_singleton]
  simp [isTerminalEvFor]

theorem attemptCount_submitted (evs : List Event) (c : Nat) (b : Bool) (x : Nat) :
    attemptCount (evs ++ [Event.submitted c b]) x = attemptCount evs x := by
  rw [attemptCount_append, attemptCount_singleton]
  simp [isAttemptFor]

theorem startedCtrs_submitted (evs : List Event) (c : Nat) (b : Bool) :
    startedCtrs (evs ++ [Event.submitted c b]) = startedCtrs evs := by
  rw [startedCtrs_append]
  show startedCtrs evs ++ [] = startedCtrs evs
  exact List.append_nil _

theorem submittedCtrs_snoc (evs : List Event) (c : Nat) (b : Bool) :
    submittedCtrs (evs ++ [Event.submitted c b]) = submittedCtrs evs ++ [c] := by
  rw [submittedCtrs_append]
  rfl

/-- Jobs finish no faster than they are allocated. -/
theorem finishedCount_le (s : QueueState) (evs : List Event) (h : QueueInv s evs) :
    finishedCount s ≤ s.jobIdCounter := by
  have hcg := h.counter_ge
  unfold contCtr at hcg
  unfold finishedCount
  rcases hsc : s.cont with _ | c | ⟨c, e⟩
  · simp only [hsc] at hcg ⊢
    omega
  · simp only [hsc] at hcg ⊢
    omega
  · simp only [hsc] at hcg ⊢
    omega

theorem processNextJob_eq_busy (r : QueueState) (hg : r.isProcessing = true) :
    processNextJob r = (r, []) := by
  unfold processNextJob
  rw [hg]
  rfl

/-- The record `createJob` builds for a `queueJob` call arriving `dt` after
the last segment. -/
def newJob (s : QueueState) (dt : Nat) (opts : JobOptions) : Job :=
  { ctr := s.jobIdCounter + 1, id := generateJobId (s.now + dt) (s.jobIdCounter + 1), status := JobStatus.queued, folder := (opts.outputDir.getD "./recordings") ++ "/" ++ generateJobId (s.now + dt) (s.jobIdCounter + 1), createdAt := s.now + dt, startedAt := none, completedAt := none, recordingsTotal := opts.recordingsCount, recordingsCompleted := 0, recordingsFailed := 0, results := [], error := none, webhookUrl := opts.webhookUrl, uploadToGdrive := opts.uploadToGdrive, metadata := opts.metadata }

/-- The state `queueJob` reaches right before its `processNextJob` call:
clock advanced, job record created and stored, entry pushed. -/
def pushedState (s : QueueState) (dt : Nat) (opts : JobOptions) : QueueState :=
  { s with now := s.now + dt, jobIdCounter := s.jobIdCounter + 1, jobQueue := s.jobQueue ++ [s.jobIdCounter + 1], allJobs := s.allJobs ++ [newJob s dt opts] }

theorem step_submit_eq (s : QueueState) (dt : Nat) (opts : JobOptions) :
    step s (QueueAction.submit dt opts) =
      ((processNextJob (pushedState s dt opts)).1,
        Event.submitted (s.jobIdCounter + 1) opts.webhookUrl.isSome ::
          (processNextJob (pushedState s dt opts)).2) := rfl

theorem newJob_ctr (s : QueueState) (dt : Nat) (opts : JobOptions) :
    (newJob s dt opts).ctr = s.jobIdCounter + 1 := rfl

theorem pushed_bounds (s : QueueState) (evs : List Event) (dt : Nat) (opts : JobOptions)
    (h : QueueInv s evs) :
    ∀ j ∈ (pushedState s dt opts).allJobs, 1 ≤ j.ctr ∧ j.ctr ≤ s.jobIdCounter + 1 := by
  intro j hj
  have hj2 : j ∈ s.allJobs ++ [newJob s dt opts] := hj
  rcases List.mem_append.mp hj2 with hj3 | hj3
  · have := h.ctrs_bounds j hj3
    omega
  · rw [List.mem_singleton.mp hj3, newJob_ctr]
    omega

theorem pushed_sorted (s : QueueState) (evs : List Event) (dt : Nat) (opts : JobOptions)
    (h : QueueInv s evs) :
    List.Pairwise (fun a b => a.ctr < b.ctr) (pushedState s dt opts).allJobs := by
  show List.Pairwise (fun a b => a.ctr < b.ctr) (s.allJobs ++ [newJob s dt opts])
  refine List.pairwise_append.mpr ⟨h.ctrs_sorted, List.pairwise_singleton _ _, ?_⟩
  intro a ha b hb
  rw [List.mem_singleton.mp hb, newJob_ctr]
  have := h.ctrs_bounds a ha
  omega

theorem pushed_status_queued (s : QueueState) (evs : List Event) (dt : Nat) (opts : JobOptions)
    (h : QueueInv s evs) :
    ∀ j ∈ (pushedState s dt opts).allJobs,
      (j.status = JobStatus.queued ↔ contCtr s < j.ctr) := by
  intro j hj
  have hj2 : j ∈ s.allJobs ++ [newJob s dt opts] := hj
  rcases List.mem_append.mp hj2 with hj3 | hj3
  · exact h.status_queued j hj3
  · rw [List.mem_singleton.mp hj3, newJob_ctr]
    have := h.counter_ge
    constructor
    · intro _
      omega
    · intro _
      rfl

theorem pushed_queue_mem (s : QueueState) (evs : List Event) (dt : Nat) (opts : JobOptions)
    (h : QueueInv s evs) :
    ∀ x ∈ (pushedState s dt opts).jobQueue,
      ∃ j ∈ (pushedState s dt opts).allJobs, j.ctr = x := by
  intro x hx
  have hx2 : x ∈ s.jobQueue ++ [s.jobIdCounter + 1] := hx
  rcases List.mem_append.mp hx2 with hx3 | hx3
  · obtain ⟨j, hj, hjc⟩ := h.queue_mem x hx3
    exact ⟨j, List.mem_append.mpr (Or.inl hj), hjc⟩
  · refine ⟨newJob s dt opts, List.mem_append.mpr (Or.inr (List.mem_singleton.mpr rfl)), ?_⟩
    rw [newJob_ctr, List.mem_singleton.mp hx3]

theorem pushed_url_flag (s : QueueState) (evs : List Event) (dt : Nat) (opts : JobOptions)
    (h : QueueInv s evs) :
    ∀ j ∈ (pushedState s dt opts).allJobs,
      Event.submitted j.ctr j.webhookUrl.isSome ∈
        evs ++ [Event.submitted (s.jobIdCounter + 1) opts.webhookUrl.isSome] := by
  intro j hj
  have hj2 : j ∈ s.allJobs ++ [newJob s dt opts] := hj
  rcases List.mem_append.mp hj2 with hj3 | hj3
  · exact List.mem_append.mpr (Or.inl (h.url_flag j hj3))
  · rw [List.mem_singleton.mp hj3]
    exact List.mem_append.mpr (Or.inr (List.mem_singleton.mpr rfl))

theorem pushed_timestamps (s : QueueState) (evs : List Event) (dt : Nat) (opts : JobOptions)
    (h : QueueInv s evs) :
    ∀ j ∈ (pushedState s dt opts).allJobs,
      (j.status ≠ JobStatus.queued → j.startedAt.isSome = true) ∧
      (isTerminal j.status = true → j.completedAt.isSome = true) := by
  intro j hj
  have hj2 : j ∈ s.allJobs ++ [newJob s dt opts] := hj
  rcases List.mem_append.mp hj2 with hj3 | hj3
  · exact h.timestamps j hj3
  · rw [List.mem_singleton.mp hj3]
    constructor
    · intro hne
      exact absurd rfl hne
    · intro hterm
      have hred : isTerminal (newJob s dt opts).status = false := rfl
      rw [hred] at hterm
      exact Bool.noConfusion hterm

theorem pushed_error_none (s : QueueState) (evs : List Event) (dt : Nat) (opts : JobOptions)
    (h : QueueInv s evs) :
    ∀ j ∈ (pushedState s dt opts).allJobs,
      isTerminal j.status = false → j.error = none := by
  intro j hj hnt
  have hj2 : j ∈ s.allJobs ++ [newJob s dt opts] := hj
  rcases List.mem_append.mp hj2 with hj3 | hj3
  · exact h.error_none j hj3 hnt
  · rw [List.mem_singleton.mp hj3]
    rfl

theorem pushed_store_count (s : QueueState) (evs : List Event) (dt : Nat) (opts : JobOptions)
    (_h : QueueInv s evs) :
    (((pushedState s dt opts).allJobs.filter fun j => isTerminal j.status).length) =
      ((s.allJobs.filter fun j => isTerminal j.status).length) := by
  show ((s.allJobs ++ [newJob s dt opts]).filter fun j => isTerminal j.status).length = _
  rw [List.filter_append,
    show (List.filter (fun j => isTerminal j.status) [newJob s dt opts]) = [] from rfl,
    List.append_nil]

theorem pushed_no_processing_new (s : QueueState) (dt : Nat) (opts : JobOptions) :
    (newJob s dt opts).status ≠ JobStatus.processing :=
  fun hq => JobStatus.noConfusion hq

theorem pushed_attempt_eq (s : QueueState) (evs : List Event) (_dt : Nat) (opts : JobOptions)
    (h : QueueInv s evs) :
    ∀ x b, Event.submitted x b ∈
        evs ++ [Event.submitted (s.jobIdCounter + 1) opts.webhookUrl.isSome] →
      attemptCount (evs ++ [Event.submitted (s.jobIdCounter + 1) opts.webhookUrl.isSome]) x =
        if b then terminalCount
          (evs ++ [Event.submitted (s.jobIdCounter + 1) opts.webhookUrl.isSome]) x
        else 0 := by
  intro x b hxb
  rw [attemptCount_submitted, terminalCount_submitted]
  rcases List.mem_append.mp hxb with hold | hnew
  · exact h.attempt_eq x b hold
  · have hx := List.mem_singleton.mp hnew
    injection hx with h1 h2
    subst h1
    rw [h.attempt_fresh (s.jobIdCounter + 1) (by omega)]
    rw [h.terminal_counts (s.jobIdCounter + 1)]
    have hfle := finishedCount_le s evs h
    have hni : ¬(1 ≤ s.jobIdCounter + 1 ∧ s.jobIdCounter + 1 ≤ finishedCount s) := by
      omega
    rw [if_neg hni, ite_self]

/-- A `queueJob` call while a drain invocation is suspended only pushes the
entry: the guard makes the nested `processNextJob` return at once, and the
invariant carries over. -/
theorem submitBusy_inv (s : QueueState) (evs : List Event) (dt : Nat) (opts : JobOptions)
    (h : QueueInv s evs)
    (hPcc : contCtr (pushedState s dt opts) = contCtr s)
    (hPfin : finishedCount (pushedState s dt opts) = finishedCount s)
    (hPtsc : terminalStoreCount (pushedState s dt opts) = terminalStoreCount s) :
    QueueInv (pushedState s dt opts)
      (evs ++ [Event.submitted (s.jobIdCounter + 1) opts.webhookUrl.isSome]) := by
  have hmS := h.counter_ge
  refine ⟨?_, ?_, ?_, ?_, ?_, ?_, ?_, pushed_bounds s evs dt opts h,
    pushed_sorted s evs dt opts h, ?_, ?_, pushed_queue_mem s evs dt opts h, ?_, ?_,
    pushed_url_flag s evs dt opts h, ?_, pushed_attempt_eq s evs dt opts h, ?_,
    pushed_timestamps s evs dt opts h, ?_, pushed_error_none s evs dt opts h⟩
  · show contCtr (pushedState s dt opts) ≤ s.jobIdCounter + 1
    rw [hPcc]
    omega
  · rcases h.cont_pos with h0 | h0
    · exact Or.inl h0
    · right
      rw [hPcc]
      exact h0
  · rw [startedCtrs_submitted, h.started_eq, hPcc]
  · rw [submittedCtrs_snoc, h.submitted_eq]
    show List.range' 1 s.jobIdCounter ++ [s.jobIdCounter + 1] =
      List.range' 1 (s.jobIdCounter + 1)
    exact range'_one_snoc s.jobIdCounter
  · show s.jobQueue ++ [s.jobIdCounter + 1] =
      List.range' (contCtr (pushedState s dt opts) + 1)
        (s.jobIdCounter + 1 - contCtr (pushedState s dt opts))
    rw [hPcc, h.queue_eq]
    rw [show s.jobIdCounter + 1 - contCtr s = (s.jobIdCounter - contCtr s) + 1 from by
      omega]
    rw [← range'_snoc (contCtr s + 1) (s.jobIdCounter - contCtr s)]
    rw [show contCtr s + 1 + (s.jobIdCounter - contCtr s) = s.jobIdCounter + 1 from by
      omega]
  · exact h.guard_eq
  · exact h.current_eq
  · intro j hj
    rw [hPcc]
    exact pushed_status_queued s evs dt opts h j hj
  · intro j hj
    have hj2 : j ∈ s.allJobs ++ [newJob s dt opts] := hj
    rcases List.mem_append.mp hj2 with hj3 | hj3
    · exact h.status_processing j hj3
    · rw [List.mem_singleton.mp hj3]
      constructor
      · intro hq
        exact JobStatus.noConfusion hq
      · intro heq
        have heq2 : s.cont = DrainCont.awaitingProcess (s.jobIdCounter + 1) := heq
        have hcc : contCtr s = s.jobIdCounter + 1 := by
          unfold contCtr
          rw [heq2]
        omega
  · intro x hx
    have hx2 : s.currentJob = some x := hx
    obtain ⟨j, hj, hjc⟩ := h.current_mem x hx2
    exact ⟨j, List.mem_append.mpr (Or.inl hj), hjc⟩
  · intro x e' hce
    have hce2 : s.cont = DrainCont.awaitingWebhook x e' := hce
    obtain ⟨j, hj, hrest⟩ := h.webhook_align x e' hce2
    exact ⟨j, List.mem_append.mpr (Or.inl hj), hrest⟩
  · intro x
    rw [terminalCount_submitted, hPfin]
    exact h.terminal_counts x
  · intro x hx
    have hx2 : s.jobIdCounter + 1 < x := hx
    rw [attemptCount_submitted]
    exact h.attempt_fresh x (by omega)
  · show (((pushedState s dt opts).allJobs.filter fun j => isTerminal j.status).length) =
      terminalStoreCount (pushedState s dt opts)
    rw [pushed_store_count s evs dt opts h, hPtsc]
    exact h.store_count

/-- A `queueJob` call preserves the invariant: the job is created and pushed,
and the nested `processNextJob` either returns at once (guard set) or pops
the sole pending entry. -/
theorem submit_inv (s : QueueState) (evs : List Event) (dt : Nat) (opts : JobOptions)
    (h : QueueInv s evs) :
    QueueInv (step s (QueueAction.submit dt opts)).1
      (evs ++ (step s (QueueAction.submit dt opts)).2) := by
  rw [step_submit_eq]
  show QueueInv (processNextJob (pushedState s dt opts)).1
    (evs ++ Event.submitted (s.jobIdCounter + 1) opts.webhookUrl.isSome ::
      (processNextJob (pushedState s dt opts)).2)
  have hassoc : evs ++ Event.submitted (s.jobIdCounter + 1) opts.webhookUrl.isSome ::
      (processNextJob (pushedState s dt opts)).2 =
      (evs ++ [Event.submitted (s.jobIdCounter + 1) opts.webhookUrl.isSome]) ++
        (processNextJob (pushedState s dt opts)).2 := by
    rw [List.append_assoc]
    rfl
  rw [hassoc]
  rcases hsc : s.cont with _ | c | ⟨c, e⟩
  · have hg : (pushedState s dt opts).isProcessing = false := by
      show s.isProcessing = false
      rw [h.guard_eq, hsc]
      rfl
    have hcc : contCtr s = s.jobIdCounter := by
      unfold contCtr
      rw [hsc]
    apply processNextJob_inv _ _ s.jobIdCounter
    refine ⟨hsc, hg, ?_, Nat.le_succ _, ?_, ?_, ?_, pushed_bounds s evs dt opts h,
      pushed_sorted s evs dt opts h, ?_, ?_, pushed_queue_mem s evs dt opts h,
      pushed_url_flag s evs dt opts h, ?_, pushed_attempt_eq s evs dt opts h, ?_,
      pushed_timestamps s evs dt opts h, ?_, pushed_error_none s evs dt opts h⟩
    · have hce := h.current_eq
      rw [hsc] at hce
      exact hce
    · rw [startedCtrs_submitted, h.started_eq, hcc]
    · rw [submittedCtrs_snoc, h.submitted_eq]
      show List.range' 1 s.jobIdCounter ++ [s.jobIdCounter + 1] =
        List.range' 1 (s.jobIdCounter + 1)
      exact range'_one_snoc s.jobIdCounter
    · show s.jobQueue ++ [s.jobIdCounter + 1] =
        List.range' (s.jobIdCounter + 1) (s.jobIdCounter + 1 - s.jobIdCounter)
      have hqe := h.queue_eq
      rw [hcc] at hqe
      rw [hqe, show s.jobIdCounter - s.jobIdCounter = 0 from by omega]
      rw [show s.jobIdCounter + 1 - s.jobIdCounter = 1 from by omega]
      rfl
    · intro j hj
      rw [← hcc]
      exact pushed_status_queued s evs dt opts h j hj
    · intro j hj
      have hj2 : j ∈ s.allJobs ++ [newJob s dt opts] := hj
      rcases List.mem_append.mp hj2 with hj3 | hj3
      · intro hp
        have hcp := (h.status_processing j hj3).mp hp
        rw [hsc] at hcp
        exact DrainCont.noConfusion hcp
      · rw [List.mem_singleton.mp hj3]
        exact pushed_no_processing_new s dt opts
    · intro x
      rw [terminalCount_submitted]
      have htc := h.terminal_counts x
      have hfc : finishedCount s = s.jobIdCounter := by
        unfold finishedCount
        rw [hsc]
      rw [hfc] at htc
      exact htc
    · intro x hx
      have hx2 : s.jobIdCounter + 1 < x := hx
      rw [attemptCount_submitted]
      exact h.attempt_fresh x (by omega)
    · show (((pushedState s dt opts).allJobs.filter fun j => isTerminal j.status).length)
        = min s.jobIdCounter 50
      rw [pushed_store_count s evs dt opts h, h.store_count]
      have hts : terminalStoreCount s = min s.jobIdCounter 50 := by
        unfold terminalStoreCount
        rw [hsc]
      exact hts
  · have hg : (pushedState s dt opts).isProcessing = true := by
      show s.isProcessing = true
      rw [h.guard_eq, hsc]
      rfl
    have hPcc : contCtr (pushedState s dt opts) = contCtr s := by
      unfold contCtr
      dsimp only [pushedState]
      rw [hsc]
    have hPfin : finishedCount (pushedState s dt opts) = finishedCount s := by
      unfold finishedCount
      dsimp only [pushedState]
      rw [hsc]
    have hPtsc : terminalStoreCount (pushedState s dt opts) = terminalStoreCount s := by
      unfold terminalStoreCount
      dsimp only [pushedState]
      rw [hsc]
    rw [processNextJob_eq_busy _ hg]
    show QueueInv (pushedState s dt opts)
      ((evs ++ [Event.submitted (s.jobIdCounter + 1) opts.webhookUrl.isSome]) ++ [])
    rw [List.append_nil]
    exact submitBusy_inv s evs dt opts h hPcc hPfin hPtsc
  · have hg : (pushedState s dt opts).isProcessing = true := by
      show s.isProcessing = true
      rw [h.guard_eq, hsc]
      rfl
    have hPcc : contCtr (pushedState s dt opts) = contCtr s := by
      unfold contCtr
      dsimp only [pushedState]
      rw [hsc]
    have hPfin : finishedCount (pushedState s dt opts) = finishedCount s := by
      unfold finishedCount
      dsimp only [pushedState]
      rw [hsc]
    have hPtsc : terminalStoreCount (pushedState s dt opts) = terminalStoreCount s := by
      unfold terminalStoreCount
      dsimp only [pushedState]
      rw [hsc]
    rw [processNextJob_eq_busy _ hg]
    show QueueInv (pushedState s dt opts)
      ((evs ++ [Event.submitted (s.jobIdCounter + 1) opts.webhookUrl.isSome]) ++ [])
    rw [List.append_nil]
    exact submitBusy_inv s evs dt opts h hPcc hPfin hPtsc

theorem terminalCount_settled (evs : List Event) (c : Nat) (d : Bool) (x : Nat) :
    terminalCount (evs ++ [Event.webhookSettled c d]) x = terminalCount evs x := by
  rw [terminalCount_append, terminalCount_singleton]
  simp [isTerminalEvFor]

theorem attemptCount_settled (evs : List Event) (c : Nat) (d : Bool) (x : Nat) :
    attemptCount (evs ++ [Event.webhookSettled c d]) x = attemptCount evs x := by
  rw [attemptCount_append, attemptCount_singleton]
  simp [isAttemptFor]

/-- Settlement of the awaited webhook delivery preserves the invariant: the
drain loop then runs the shared finish path.  The delivery outcome flag is
only logged, so the resulting state does not depend on it. -/
theorem webhookSettle_inv (s : QueueState) (evs : List Event) (c : Nat)
    (err : Option String) (delivered : Bool) (t : Nat)
    (h : QueueInv s evs) (hc : s.cont = DrainCont.awaitingWebhook c err) :
    QueueInv (finishJob { s with now := t } c err).1
      (evs ++ Event.webhookSettled c delivered ::
        (finishJob { s with now := t } c err).2) := by
  have hctr : contCtr s = c := by
    unfold contCtr
    rw [hc]
  have hfin : finishedCount s = c := by
    unfold finishedCount
    rw [hc]
  have htsc : terminalStoreCount s = min (c - 1) 50 + 1 := by
    unfold terminalStoreCount
    rw [hc]
  have hcpos : 1 ≤ c := by
    rcases h.cont_pos with h0 | h0
    · rw [hc] at h0
      exact absurd h0 (by simp)
    · rw [hctr] at h0
      exact h0
  have hcS : c ≤ s.jobIdCounter := by
    rw [← hctr]
    exact h.counter_ge
  have hass : evs ++ Event.webhookSettled c delivered ::
      (finishJob { s with now := t } c err).2 =
      (evs ++ [Event.webhookSettled c delivered]) ++
        (finishJob { s with now := t } c err).2 := by
    rw [List.append_assoc]
    rfl
  rw [hass]
  apply finishJob_inv _ _ c err
  refine ⟨hcS, hcpos, ?_, ?_, ?_, h.ctrs_bounds, h.ctrs_sorted, ?_, ?_, h.queue_mem,
    ?_, ?_, ?_, ?_, h.timestamps, ?_, h.error_none⟩
  · rw [startedCtrs_append, h.started_eq, hctr]
    show List.range' 1 c ++ ([] : List Nat) = List.range' 1 c
    exact List.append_nil _
  · rw [submittedCtrs_append, h.submitted_eq]
    show List.range' 1 s.jobIdCounter ++ ([] : List Nat) = List.range' 1 s.jobIdCounter
    exact List.append_nil _
  · show s.jobQueue = List.range' (c + 1) (s.jobIdCounter - c)
    have hqe := h.queue_eq
    rw [hctr] at hqe
    exact hqe
  · intro j hj
    have := h.status_queued j hj
    rw [hctr] at this
    exact this
  · intro j hj hp
    have := (h.status_processing j hj).mp hp
    rw [hc] at this
    exact DrainCont.noConfusion this
  · intro j hj
    exact List.mem_append.mpr (Or.inl (h.url_flag j hj))
  · intro x
    rw [terminalCount_settled]
    have htc := h.terminal_counts x
    rw [hfin] at htc
    exact htc
  · intro x b hxb
    have hxbe : Event.submitted x b ∈ evs := by
      rcases List.mem_append.mp hxb with hx | hx
      · exact hx
      · exfalso
        rcases List.mem_cons.mp hx with hx | hx
        · exact Event.noConfusion hx
        · exact absurd hx (by simp)
    rw [attemptCount_settled, terminalCount_settled]
    exact h.attempt_eq x b hxbe
  · intro x hx
    have hx2 : s.jobIdCounter < x := hx
    rw [attemptCount_settled]
    exact h.attempt_fresh x hx2
  · show ((s.allJobs.filter fun j => isTerminal j.status).length) = min (c - 1) 50 + 1
    rw [h.store_count, htsc]

/-- The module's initial state satisfies the invariant with an empty trace. -/
theorem queueInv_init : QueueInv initState [] := by
  refine ⟨Nat.le_refl _, Or.inl rfl, rfl, rfl, rfl, rfl, rfl, ?_, List.Pairwise.nil,
    ?_, ?_, ?_, ?_, ?_, ?_, ?_, ?_, ?_, ?_, by decide, ?_⟩
  · intro j hj
    exact absurd hj (List.not_mem_nil j)
  · intro j hj
    exact absurd hj (List.not_mem_nil j)
  · intro j hj
    exact absurd hj (List.not_mem_nil j)
  · intro c hc
    exact absurd hc (List.not_mem_nil c)
  · intro c hc
    exact Option.noConfusion hc
  · intro c e hce
    exact DrainCont.noConfusion hce
  · intro j hj
    exact absurd hj (List.not_mem_nil j)
  · intro c
    show terminalCount [] c = if 1 ≤ c ∧ c ≤ 0 then 1 else 0
    rw [if_neg (by omega)]
    rfl
  · intro c b hcb
    exact absurd hcb (List.not_mem_nil _)
  · intro c _
    rfl
  · intro j hj
    exact absurd hj (List.not_mem_nil j)
  · intro j hj
    exact absurd hj (List.not_mem_nil j)

/-- Every synchronous execution segment preserves the invariant. -/
theorem step_inv (s : QueueState) (evs : List Event) (a : QueueAction)
    (h : QueueInv s evs) : QueueInv (step s a).1 (evs ++ (step s a).2) := by
  cases a with
  | submit dt opts => exact submit_inv s evs dt opts h
  | processSettle dt res =>
    rcases hsc : s.cont with _ | c | ⟨c, e⟩
    · have heq : step s (QueueAction.processSettle dt res) = (s, []) := by
        unfold step
        rw [hsc]
      rw [heq]
      show QueueInv s (evs ++ [])
      rw [List.append_nil]
      exact h
    · have heq : step s (QueueAction.processSettle dt res) =
          settleProcess { s with now := s.now + dt } c res := by
        unfold step
        rw [hsc]
      rw [heq]
      exact settleProcess_inv { s with now := s.now + dt } evs c res
        (queueInv_set_now s evs (s.now + dt) h) hsc
    · have heq : step s (QueueAction.processSettle dt res) = (s, []) := by
        unfold step
        rw [hsc]
      rw [heq]
      show QueueInv s (evs ++ [])
      rw [List.append_nil]
      exact h
  | webhookSettle dt delivered =>
    rcases hsc : s.cont with _ | c | ⟨c, e⟩
    · have heq : step s (QueueAction.webhookSettle dt delivered) = (s, []) := by
        unfold step
        rw [hsc]
      rw [heq]
      show QueueInv s (evs ++ [])
      rw [List.append_nil]
      exact h
    · have heq : step s (QueueAction.webhookSettle dt delivered) = (s, []) := by
        unfold step
        rw [hsc]
      rw [heq]
      show QueueInv s (evs ++ [])
      rw [List.append_nil]
      exact h
    · have heq : step s (QueueAction.webhookSettle dt delivered) =
          ((finishJob { s with now := s.now + dt } c e).1,
            Event.webhookSettled c delivered ::
              (finishJob { s with now := s.now + dt } c e).2) := by
        unfold step
        rw [hsc]
      rw [heq]
      exact webhookSettle_inv s evs c e delivered (s.now + dt) h hsc

theorem runFrom_inv (acts : List QueueAction) :
    ∀ (s : QueueState) (evs : List Event), QueueInv s evs →
      QueueInv (runFrom s evs acts).1 (runFrom s evs acts).2 := by
  induction acts with
  | nil =>
    intro s evs h
    exact h
  | cons a rest ih =>
    intro s evs h
    exact ih (step s a).1 (evs ++ (step s a).2) (step_inv s evs a h)

/-- Every state and trace the queue manager can reach satisfies the
invariant. -/
theorem run_inv (acts : List QueueAction) : QueueInv (run acts).1 (run acts).2 :=
  runFrom_inv acts initState [] queueInv_init

/-! ## Concrete fixtures for the claim witnesses -/

def optsW : JobOptions :=
  { recordingsCount := 2, webhookUrl := some "http://w", outputDir := none, uploadToGdrive := false, metadata := "m" }

def optsN : JobOptions :=
  { recordingsCount := 2, webhookUrl := none, outputDir := none, uploadToGdrive := false, metadata := "m" }

def r1 : TaskResult := { success := true, sessionId := "a", error := none }

def r2 : TaskResult := { success := false, sessionId := "b", error := some "boom" }

def actsS1 : List QueueAction := [QueueAction.submit 0 optsN]

def actsS2 : List QueueAction := [QueueAction.submit 0 optsN, QueueAction.submit 0 optsN]

def actsS2W : List QueueAction := [QueueAction.submit 0 optsW, QueueAction.submit 0 optsN]

def actsC3 : List QueueAction :=
  [QueueAction.submit 0 optsW, QueueAction.submit 0 optsN,
   QueueAction.processSettle 0 (Except.ok [r1, r2])]

def actsC4 : List QueueAction :=
  [QueueAction.submit 0 optsN, QueueAction.processSettle 1 (Except.ok [r1, r2])]

def actsC5 : List QueueAction :=
  [QueueAction.submit 0 optsN, QueueAction.submit 0 optsN,
   QueueAction.processSettle 1 (Except.error "bad")]

def actsC8 : List QueueAction :=
  (List.range 51).flatMap fun _ =>
    [QueueAction.submit 1 optsN, QueueAction.processSettle 1 (Except.ok [])]

def jobProc2 : Job :=
  { ctr := 2, id := "job_00000000000000_002", status := JobStatus.processing, folder := "./recordings/job_00000000000000_002", createdAt := 0, startedAt := some 1, completedAt := none, recordingsTotal := 2, recordingsCompleted := 0, recordingsFailed := 0, results := [], error := none, webhookUrl := none, uploadToGdrive := false, metadata := "m" }

def jobProcS1 : Job :=
  { ctr := 1, id := "job_00000000000000_001", status := JobStatus.processing, folder := "./recordings/job_00000000000000_001", createdAt := 0, startedAt := some 0, completedAt := none, recordingsTotal := 2, recordingsCompleted := 0, recordingsFailed := 0, results := [], error := none, webhookUrl := none, uploadToGdrive := false, metadata := "m" }

def jobDoneS1 : Job :=
  { ctr := 1, id := "job_00000000000000_001", status := JobStatus.completed, folder := "./recordings/job_00000000000000_001", createdAt := 0, startedAt := some 0, completedAt := some 0, recordingsTotal := 2, recordingsCompleted := 1, recordingsFailed := 1, results := [r1, r2], error := none, webhookUrl := none, uploadToGdrive := false, metadata := "m" }

def jobFailS2 : Job :=
  { ctr := 1, id := "job_00000000000000_001", status := JobStatus.failed, folder := "./recordings/job_00000000000000_001", createdAt := 0, startedAt := some 0, completedAt := some 0, recordingsTotal := 2, recordingsCompleted := 0, recordingsFailed := 0, results := [], error := some "bad", webhookUrl := none, uploadToGdrive := false, metadata := "m" }

def jobDoneC4 : Job :=
  { ctr := 1, id := "job_00000000000000_001", status := JobStatus.completed, folder := "./recordings/job_00000000000000_001", createdAt := 0, startedAt := some 0, completedAt := some 1, recordingsTotal := 2, recordingsCompleted := 1, recordingsFailed := 1, results := [r1, r2], error := none, webhookUrl := none, uploadToGdrive := false, metadata := "m" }

/-- Over a store with pairwise distinct counters, a predicate forcing one
fixed counter selects at most one record. -/
theorem filter_ctr_le_one (p : Job → Bool) (c : Nat) :
    ∀ jobs : List Job, List.Pairwise (fun a b => a.ctr < b.ctr) jobs →
      (∀ j ∈ jobs, p j = true → j.ctr = c) → (jobs.filter p).length ≤ 1 := by
  intro jobs
  induction jobs with
  | nil =>
    intro _ _
    simp
  | cons a t ih =>
    intro hp hpc
    rw [List.filter_cons]
    by_cases hpa : p a = true
    · rw [if_pos hpa]
      have htnil : t.filter p = [] := by
        rw [List.filter_eq_nil_iff]
        intro j hj hpj
        have h1 : j.ctr = c := hpc j (List.mem_cons_of_mem _ hj) hpj
        have h2 : a.ctr = c := hpc a (List.mem_cons_self _ _) hpa
        have h3 : a.ctr < j.ctr := (List.pairwise_cons.mp hp).1 j hj
        omega
      rw [htnil]
      simp
    · rw [if_neg hpa]
      exact ih (List.pairwise_cons.mp hp).2
        fun j hj hpj => hpc j (List.mem_cons_of_mem _ hj) hpj

/-- C1: At every reachable state of the scheduler at most one job is
`processing`: any two stored jobs both marked processing are the same
record, and the count of processing records in the store never exceeds
one. -/
theorem processing_unique (acts : List QueueAction) :
    (∀ j₁ ∈ (run acts).1.allJobs, ∀ j₂ ∈ (run acts).1.allJobs,
      j₁.status = JobStatus.processing → j₂.status = JobStatus.processing → j₁ = j₂) ∧
    ((run acts).1.allJobs.filter fun j => j.status == JobStatus.processing).length ≤ 1 := by
  have h := run_inv acts
  refine ⟨?_, ?_⟩
  · intro j₁ h₁ j₂ h₂ hp₁ hp₂
    have e₁ := (h.status_processing j₁ h₁).mp hp₁
    have e₂ := (h.status_processing j₂ h₂).mp hp₂
    rw [e₁] at e₂
    have hcc : j₁.ctr = j₂.ctr := by
      injection e₂
    exact ctr_inj_of_pairwise _ h.ctrs_sorted j₁ h₁ j₂ h₂ hcc
  · refine filter_ctr_le_one _ (contCtr (run acts).1) _ h.ctrs_sorted ?_
    intro j hj hpj
    have hst : j.status = JobStatus.processing := eq_of_beq hpj
    have hcp := (h.status_processing j hj).mp hst
    unfold contCtr
    rw [hcp]

theorem processing_unique_witness :
    jobProc2 ∈ (run actsC5).1.allJobs ∧ jobProc2.status = JobStatus.processing ∧
    ((run actsC5).1.allJobs.filter fun j => j.status == JobStatus.processing).length ≤ 1 ∧
    jobProc2 = jobProc2 :=
  ⟨by decide, by decide, (processing_unique actsC5).2,
    (processing_unique actsC5).1 jobProc2 (by decide) jobProc2 (by decide)
      (by decide) (by decide)⟩

/-- C2: Jobs reach `processing` in exact submission order: the trace of
started counters is the range of submitted counters in order, and while a
job is active every earlier job has already turned terminal and no later
job has been started. -/
theorem fifo_order (acts : List QueueAction) :
    (startedCtrs (run acts).2 = List.range' 1 (contCtr (run acts).1)) ∧
    (submittedCtrs (run acts).2 = List.range' 1 (run acts).1.jobIdCounter) ∧
    (∀ cA cB, 1 ≤ cA → cA < cB → (run acts).1.cont = DrainCont.awaitingProcess cB →
      terminalCount (run acts).2 cA = 1) ∧
    (∀ cB, (run acts).1.cont = DrainCont.awaitingProcess cB →
      ∀ cA, cB < cA → Event.started cA ∉ (run acts).2) := by
  have h := run_inv acts
  refine ⟨h.started_eq, h.submitted_eq, ?_, ?_⟩
  · intro cA cB h1 hlt hcont
    have hfin : finishedCount (run acts).1 = cB - 1 := by
      unfold finishedCount
      rw [hcont]
    rw [h.terminal_counts cA, hfin]
    have hcond : 1 ≤ cA ∧ cA ≤ cB - 1 := by omega
    rw [if_pos hcond]
  · intro cB hcont cA hlt hmem
    have hin : cA ∈ startedCtrs (run acts).2 :=
      List.mem_filterMap.mpr ⟨Event.started cA, hmem, rfl⟩
    rw [h.started_eq] at hin
    have hcc : contCtr (run acts).1 = cB := by
      unfold contCtr
      rw [hcont]
    rw [hcc] at hin
    have := (List.mem_range'_1.mp hin).2
    omega

theorem fifo_order_witness :
    startedCtrs (run actsC5).2 = List.range' 1 (contCtr (run actsC5).1) ∧
    terminalCount (run actsC5).2 1 = 1 ∧
    Event.started 3 ∉ (run actsC5).2 :=
  ⟨(fifo_order actsC5).1,
   (fifo_order actsC5).2.2.1 1 2 (by decide) (by decide) (by decide),
   (fifo_order actsC5).2.2.2 2 (by decide) 3 (by decide)⟩

/-- C10: Every stored job in a terminal state has both `startedAt` and
`completedAt` set: the drain loop stamps `startedAt` before invoking the
callback and `completedAt` on both settlement paths, so the retention
trimmer always ranks terminal jobs by a defined timestamp. -/
theorem terminal_timestamps (acts : List QueueAction) :
    ∀ j ∈ (run acts).1.allJobs, isTerminal j.status = true →
      j.startedAt.isSome = true ∧ j.completedAt.isSome = true := by
  intro j hj ht
  have h := run_inv acts
  have hts := h.timestamps j hj
  refine ⟨hts.1 ?_, hts.2 ht⟩
  intro hq
  rw [hq] at ht
  exact Bool.noConfusion ht

theorem terminal_timestamps_witness :
    jobDoneC4 ∈ (run actsC4).1.allJobs ∧ isTerminal jobDoneC4.status = true ∧
    jobDoneC4.startedAt.isSome = true ∧ jobDoneC4.completedAt.isSome = true := by
  refine ⟨by decide, by decide, ?_, ?_⟩
  · exact (terminal_timestamps actsC4 jobDoneC4 (by decide) (by decide)).1
  · exact (terminal_timestamps actsC4 jobDoneC4 (by decide) (by decide)).2

/-- A positive attempt count exhibits a `webhookAttempt` event. -/
theorem attempt_mem_of_count (evs : List Event) (c : Nat)
    (h : 0 < attemptCount evs c) : Event.webhookAttempt c ∈ evs := by
  unfold attemptCount at h
  obtain ⟨ev, hmem, hp⟩ := List.countP_pos_iff.mp h
  cases ev with
  | webhookAttempt x =>
    have hx : x = c := by
      simpa [isAttemptFor] using hp
    rw [← hx]
    exact hmem
  | submitted a b => simp [isAttemptFor] at hp
  | started a => simp [isAttemptFor] at hp
  | jobCompleted a => simp [isAttemptFor] at hp
  | jobFailed a => simp [isAttemptFor] at hp
  | webhookSettled a b => simp [isAttemptFor] at hp
  | resolvedCaller a => simp [isAttemptFor] at hp
  | rejectedCaller a m => simp [isAttemptFor] at hp

/-- C3, counterexample: with a webhook url set, after the processing callback
of job 1 settles the drain loop parks at the webhook await: job 1 is
terminal and its attempt issued, yet job 2 stays queued and unstarted; only
once the delivery settles is job 2 started. -/
theorem webhook_blocks_queue_counterexample :
    (run actsC3).1.cont = DrainCont.awaitingWebhook 1 none ∧
    (run actsC3).1.jobQueue = [2] ∧
    (run actsC3).1.isProcessing = true ∧
    terminalCount (run actsC3).2 1 = 1 ∧
    Event.webhookAttempt 1 ∈ (run actsC3).2 ∧
    Event.started 2 ∉ (run actsC3).2 ∧
    Event.started 2 ∈ (run (actsC3 ++ [QueueAction.webhookSettle 0 true])).2 :=
  ⟨by decide, by decide, by decide, by decide, by decide, by decide, by decide⟩

/-- C3 (amended): webhook delivery is awaited, not fire-and-forget: while
the drain loop sits at the webhook await of job `c`, the attempt has been
issued, but the guard is still set, only the first `c` jobs have started,
and every later submission is still queued. -/
theorem webhook_awaited_before_pop (acts : List QueueAction) (c : Nat) (e : Option String)
    (hc : (run acts).1.cont = DrainCont.awaitingWebhook c e) :
    (run acts).1.isProcessing = true ∧
    startedCtrs (run acts).2 = List.range' 1 c ∧
    (run acts).1.jobQueue = List.range' (c + 1) ((run acts).1.jobIdCounter - c) ∧
    Event.webhookAttempt c ∈ (run acts).2 := by
  have h := run_inv acts
  have hcc : contCtr (run acts).1 = c := by
    unfold contCtr
    rw [hc]
  have hfin : finishedCount (run acts).1 = c := by
    unfold finishedCount
    rw [hc]
  have hcpos : 1 ≤ c := by
    rcases h.cont_pos with h0 | h0
    · rw [hc] at h0
      exact absurd h0 (by simp)
    · rw [hcc] at h0
      exact h0
  refine ⟨?_, ?_, ?_, ?_⟩
  · have hg := h.guard_eq
    rw [hc] at hg
    exact hg
  · rw [h.started_eq, hcc]
  · have hq := h.queue_eq
    rw [hcc] at hq
    exact hq
  · obtain ⟨j, hj, hjc, hurl, hje, hjst⟩ := h.webhook_align c e hc
    have hsub := h.url_flag j hj
    rw [hjc, hurl] at hsub
    have hatt := h.attempt_eq c true hsub
    rw [h.terminal_counts c, hfin] at hatt
    have h1 : attemptCount (run acts).2 c = 1 := by
      rw [hatt]
      simp [hcpos]
    exact attempt_mem_of_count _ c (by omega)

theorem webhook_awaited_before_pop_witness :
    (run actsC3).1.cont = DrainCont.awaitingWebhook 1 none ∧
    ((run actsC3).1.isProcessing = true ∧
      startedCtrs (run actsC3).2 = List.range' 1 1 ∧
      (run actsC3).1.jobQueue = List.range' 2 ((run actsC3).1.jobIdCounter - 1) ∧
      Event.webhookAttempt 1 ∈ (run actsC3).2) :=
  ⟨by decide, webhook_awaited_before_pop actsC3 1 none (by decide)⟩

/-- C7: Exactly one webhook attempt per terminal transition when the url is
set and none when unset, attempts never exceed one per job, and the delivery
outcome is only logged: the post-settlement state is identical whether
delivery succeeded or failed. -/
theorem webhook_attempt_contract :
    (∀ acts c b, Event.submitted c b ∈ (run acts).2 →
      attemptCount (run acts).2 c = (if b then terminalCount (run acts).2 c else 0) ∧
      attemptCount (run acts).2 c ≤ 1 ∧ terminalCount (run acts).2 c ≤ 1) ∧
    (∀ s dt d, (step s (QueueAction.webhookSettle dt d)).1 =
      (step s (QueueAction.webhookSettle dt true)).1) := by
  constructor
  · intro acts c b hmem
    have h := run_inv acts
    have ha := h.attempt_eq c b hmem
    have htle : terminalCount (run acts).2 c ≤ 1 := by
      rw [h.terminal_counts c]
      split_ifs <;> omega
    refine ⟨ha, ?_, htle⟩
    rw [ha]
    rcases b with _ | _
    · exact Nat.zero_le _
    · exact htle
  · intro s dt d
    rcases hsc : s.cont with _ | c | ⟨c, e⟩
    · unfold step
      rw [hsc]
    · unfold step
      rw [hsc]
    · unfold step
      rw [hsc]

theorem webhook_attempt_contract_witness :
    Event.submitted 1 true ∈ (run actsC3).2 ∧
    attemptCount (run actsC3).2 1 =
      (if true then terminalCount (run actsC3).2 1 else 0) ∧
    attemptCount (run actsC3).2 1 ≤ 1 ∧
    (step initState (QueueAction.webhookSettle 0 false)).1 =
      (step initState (QueueAction.webhookSettle 0 true)).1 :=
  ⟨by decide, (webhook_attempt_contract.1 actsC3 1 true (by decide)).1,
    (webhook_attempt_contract.1 actsC3 1 true (by decide)).2.1,
    webhook_attempt_contract.2 initState 0 false⟩

/-- Splitting a list by a predicate preserves the total length. -/
theorem filter_split_length {α : Type} (p : α → Bool) (l : List α) :
    (l.filter p).length + (l.filter fun a => !(p a)).length = l.length := by
  induction l with
  | nil => rfl
  | cons a t ih =>
    by_cases hpa : p a = true
    · rw [List.filter_cons, List.filter_cons, if_pos hpa, if_neg (by simp [hpa])]
      simp only [List.length_cons]
      omega
    · have hpa2 : p a = false := by
        cases hpq : p a
        · rfl
        · exact absurd hpq hpa
      rw [List.filter_cons, List.filter_cons, if_neg hpa, if_pos (by simp [hpa2])]
      simp only [List.length_cons]
      omega

/-- In a store with strictly increasing counters, the record carrying the
updated counter is uniquely the updated one. -/
theorem updated_store_unique (jobs : List Job) (c : Nat) (upd : Job → Job) (j₀ : Job)
    (hp : List.Pairwise (fun a b => a.ctr < b.ctr) jobs)
    (hj₀mem : j₀ ∈ jobs) (hj₀ctr : j₀.ctr = c) :
    ∀ j' ∈ updateJobRecord jobs c upd, j'.ctr = c → j' = upd j₀ := by
  obtain ⟨l₁, l₂, hdecomp, hupdate, hl₁, hl₂⟩ :=
    updateJobRecord_decomp jobs c upd j₀ hp hj₀mem hj₀ctr
  intro j' hj' hctr'
  rw [hupdate] at hj'
  rcases List.mem_append.mp hj' with hj2 | hj2
  · have := hl₁ j' hj2
    omega
  · rcases List.mem_cons.mp hj2 with hj2 | hj2
    · exact hj2
    · have := hl₂ j' hj2
      omega

/-- Every entry still queued while job `c` is being processed was submitted
later. -/
theorem queue_gt (s : QueueState) (evs : List Event) (c : Nat)
    (h : QueueInv s evs) (hc : s.cont = DrainCont.awaitingProcess c) :
    ∀ x ∈ s.jobQueue, c < x := by
  intro x hx
  have hcc : contCtr s = c := by
    unfold contCtr
    rw [hc]
  have hqe := h.queue_eq
  rw [hcc] at hqe
  rw [hqe] at hx
  have := (List.mem_range'_1.mp hx).1
  omega

/-- While job `c` is being processed and later submissions exist, the queue
head is the next counter. -/
theorem queue_cons (s : QueueState) (evs : List Event) (c : Nat)
    (h : QueueInv s evs) (hc : s.cont = DrainCont.awaitingProcess c)
    (hlt : c < s.jobIdCounter) :
    s.jobQueue = (c + 1) :: List.range' (c + 2) (s.jobIdCounter - c - 1) := by
  have hcc : contCtr s = c := by
    unfold contCtr
    rw [hc]
  have hqe := h.queue_eq
  rw [hcc] at hqe
  rw [hqe, show s.jobIdCounter - c = (s.jobIdCounter - c - 1) + 1 from by omega]
  rfl

/-- The finish path keeps every record carrying the finished job's counter:
the trim may drop it, and the pop only touches a strictly later record. -/
theorem finishJob_store_mem (s : QueueState) (c : Nat) (err : Option String) (j' : Job)
    (hq : ∀ x ∈ s.jobQueue, c < x)
    (hmem : j' ∈ (finishJob s c err).1.allJobs) (hctr : j'.ctr = c) :
    j' ∈ s.allJobs := by
  have hmem2 : j' ∈ (processNextJob (cleanupOldJobs { s with currentJob := none, isProcessing := false, cont := DrainCont.idle })).1.allJobs := hmem
  have hsub := cleanupJobs_sublist s.allJobs
  rcases hqq : s.jobQueue with _ | ⟨c₂, rest⟩
  · rw [processNextJob_eq_nil (cleanupOldJobs { s with currentJob := none, isProcessing := false, cont := DrainCont.idle }) rfl hqq] at hmem2
    have hm3 : j' ∈ cleanupJobs s.allJobs := hmem2
    exact hsub.mem hm3
  · rw [processNextJob_eq_pop (cleanupOldJobs { s with currentJob := none, isProcessing := false, cont := DrainCont.idle }) c₂ rest rfl hqq] at hmem2
    have hm3 : j' ∈ updateJobRecord (cleanupJobs s.allJobs) c₂
        (fun j => { j with status := JobStatus.processing, startedAt := some s.now }) :=
      hmem2
    obtain ⟨jx, hjx, hje⟩ := mem_updateJobRecord _ _ _ _ hm3
    have hc₂ : c < c₂ := hq c₂ (by rw [hqq]; exact List.mem_cons_self _ _)
    by_cases hxc : jx.ctr = c₂
    · rw [if_pos hxc] at hje
      have hctr2 : jx.ctr = c := by
        rw [hje] at hctr
        exact hctr
      omega
    · rw [if_neg hxc] at hje
      rw [hje]
      exact hsub.mem hjx

/-- The caller's promise is rejected with the stored error on the finish
path of a failed job. -/
theorem finishJob_caller_mem (s : QueueState) (c : Nat) (m : String) :
    Event.rejectedCaller c m ∈ (finishJob s c (some m)).2 :=
  List.mem_cons_self _ _

/-- When a later entry is queued, the finish path synchronously starts it. -/
theorem finishJob_started_mem (s : QueueState) (c : Nat) (err : Option String)
    (hq : s.jobQueue = (c + 1) :: List.range' (c + 2) (s.jobIdCounter - c - 1)) :
    Event.started (c + 1) ∈ (finishJob s c err).2 := by
  have hpop := processNextJob_eq_pop
    (cleanupOldJobs { s with currentJob := none, isProcessing := false, cont := DrainCont.idle })
    (c + 1) (List.range' (c + 2) (s.jobIdCounter - c - 1)) rfl hq
  rcases err with _ | m
  · show Event.started (c + 1) ∈ Event.resolvedCaller c ::
      (processNextJob (cleanupOldJobs { s with currentJob := none, isProcessing := false, cont := DrainCont.idle })).2
    rw [hpop]
    exact List.mem_cons_of_mem _ (List.mem_cons_self _ _)
  · show Event.started (c + 1) ∈ Event.rejectedCaller c m ::
      (processNextJob (cleanupOldJobs { s with currentJob := none, isProcessing := false, cont := DrainCont.idle })).2
    rw [hpop]
    exact List.mem_cons_of_mem _ (List.mem_cons_self _ _)

/-- The in-place mutation the resolution path applies to the current job. -/
def completeUpd (t : Nat) (rs : List TaskResult) : Job → Job :=
  fun j => { j with status := JobStatus.completed, completedAt := some t, results := rs, recordingsCompleted := (rs.filter fun r => r.success).length, recordingsFailed := (rs.filter fun r => !r.success).length }

/-- The in-place mutation the rejection path applies to the current job. -/
def failUpd (t : Nat) (msg : String) : Job → Job :=
  fun j => { j with status := JobStatus.failed, completedAt := some t, error := some msg }

/-- C4: When the processing callback of the current job resolves with a
task-result list of the job's size, the stored record is marked completed
with `completedAt` stamped, holds the list as `results`, and carries the
success and failure counts, which sum to `recordingsTotal`; the result list
length equals `recordingsTotal`. -/
theorem completion_fields (s : QueueState) (evs : List Event) (c : Nat)
    (rs : List TaskResult) (j₀ : Job)
    (h : QueueInv s evs) (hc : s.cont = DrainCont.awaitingProcess c)
    (hl : lookupJob s c = some j₀) (hlen : rs.length = j₀.recordingsTotal) :
    ∀ j' ∈ (settleProcess s c (Except.ok rs)).1.allJobs, j'.ctr = c →
      j'.status = JobStatus.completed ∧ j'.completedAt = some s.now ∧
      j'.results = rs ∧
      j'.recordingsCompleted = (rs.filter fun r => r.success).length ∧
      j'.recordingsFailed = (rs.filter fun r => !r.success).length ∧
      j'.recordingsCompleted + j'.recordingsFailed = j'.recordingsTotal ∧
      j'.results.length = j'.recordingsTotal := by
  have hj₀mem : j₀ ∈ s.allJobs := List.mem_of_find?_eq_some hl
  have hj₀ctr : j₀.ctr = c := by
    have := List.find?_some hl
    simpa using this
  have huniq := updated_store_unique s.allJobs c (completeUpd s.now rs) j₀
    h.ctrs_sorted hj₀mem hj₀ctr
  have hkey : ∀ j' ∈ (settleProcess s c (Except.ok rs)).1.allJobs, j'.ctr = c →
      j' = completeUpd s.now rs j₀ := by
    cases hw : jobWebhookSet (completeState s c rs) c with
    | true =>
      rw [settleProcess_ok_pos s c rs hw]
      intro j' hj' hctr'
      exact huniq j' hj' hctr'
    | false =>
      rw [settleProcess_ok_neg s c rs hw]
      intro j' hj' hctr'
      have hq2 : ∀ x ∈ (completeState s c rs).jobQueue, c < x :=
        queue_gt s evs c h hc
      have hj2 : j' ∈ (completeState s c rs).allJobs :=
        finishJob_store_mem (completeState s c rs) c none j' hq2 hj' hctr'
      exact huniq j' hj2 hctr'
  intro j' hj' hctr'
  have he := hkey j' hj' hctr'
  rw [he]
  refine ⟨rfl, rfl, rfl, rfl, rfl, ?_, ?_⟩
  · show (rs.filter fun r => r.success).length + (rs.filter fun r => !r.success).length
      = j₀.recordingsTotal
    rw [← hlen]
    exact filter_split_length _ rs
  · exact hlen

theorem completion_fields_witness :
    lookupJob (run actsS1).1 1 = some jobProcS1 ∧
    jobDoneS1 ∈ (settleProcess (run actsS1).1 1 (Except.ok [r1, r2])).1.allJobs ∧
    jobDoneS1.status = JobStatus.completed ∧
    jobDoneS1.completedAt = some (run actsS1).1.now ∧
    jobDoneS1.results = [r1, r2] ∧
    jobDoneS1.recordingsCompleted + jobDoneS1.recordingsFailed = jobDoneS1.recordingsTotal ∧
    jobDoneS1.results.length = jobDoneS1.recordingsTotal := by
  have happ := completion_fields (run actsS1).1 (run actsS1).2 1 [r1, r2] jobProcS1
    (run_inv actsS1) (by decide) (by decide) (by decide) jobDoneS1 (by decide) (by decide)
  exact ⟨by decide, by decide, happ.1, happ.2.1, happ.2.2.1, happ.2.2.2.2.2.1,
    happ.2.2.2.2.2.2⟩

/-- C5: When the processing callback of the current job rejects, the stored
record is marked failed with the message as `error` and `completedAt`
stamped; the caller's promise is rejected with that message, and the drain
loop goes on to start the next queued job — directly when no webhook url is
set, and right after the webhook delivery settles when one is. -/
theorem failure_fields (s : QueueState) (evs : List Event) (c : Nat) (msg : String)
    (h : QueueInv s evs) (hc : s.cont = DrainCont.awaitingProcess c) :
    (∀ j' ∈ (settleProcess s c (Except.error msg)).1.allJobs, j'.ctr = c →
      j'.status = JobStatus.failed ∧ j'.error = some msg ∧
      j'.completedAt = some s.now ∧ j'.startedAt.isSome = true) ∧
    (jobWebhookSet (failState s c msg) c = false →
      Event.rejectedCaller c msg ∈ (settleProcess s c (Except.error msg)).2) ∧
    (jobWebhookSet (failState s c msg) c = false → c < s.jobIdCounter →
      Event.started (c + 1) ∈ (settleProcess s c (Except.error msg)).2) ∧
    (jobWebhookSet (failState s c msg) c = true →
      (settleProcess s c (Except.error msg)).1.cont =
        DrainCont.awaitingWebhook c (some msg)) ∧
    (jobWebhookSet (failState s c msg) c = true → ∀ t d,
      Event.rejectedCaller c msg ∈
        (step (settleProcess s c (Except.error msg)).1 (QueueAction.webhookSettle t d)).2) ∧
    (jobWebhookSet (failState s c msg) c = true → c < s.jobIdCounter → ∀ t d,
      Event.started (c + 1) ∈
        (step (settleProcess s c (Except.error msg)).1 (QueueAction.webhookSettle t d)).2) := by
  have hcur : s.currentJob = some c := by
    have hce := h.current_eq
    rw [hc] at hce
    exact hce
  obtain ⟨j₀, hj₀mem, hj₀ctr⟩ := h.current_mem c hcur
  have hj₀proc : j₀.status = JobStatus.processing := by
    refine (h.status_processing j₀ hj₀mem).mpr ?_
    rw [hc, hj₀ctr]
  have hj₀start : j₀.startedAt.isSome = true :=
    (h.timestamps j₀ hj₀mem).1 (by rw [hj₀proc]; simp)
  have huniq := updated_store_unique s.allJobs c (failUpd s.now msg) j₀
    h.ctrs_sorted hj₀mem hj₀ctr
  refine ⟨?_, ?_, ?_, ?_, ?_, ?_⟩
  · have hkey : ∀ j' ∈ (settleProcess s c (Except.error msg)).1.allJobs, j'.ctr = c →
        j' = failUpd s.now msg j₀ := by
      cases hw : jobWebhookSet (failState s c msg) c with
      | true =>
        rw [settleProcess_err_pos s c msg hw]
        intro j' hj' hctr'
        exact huniq j' hj' hctr'
      | false =>
        rw [settleProcess_err_neg s c msg hw]
        intro j' hj' hctr'
        have hq2 : ∀ x ∈ (failState s c msg).jobQueue, c < x :=
          queue_gt s evs c h hc
        have hj2 : j' ∈ (failState s c msg).allJobs :=
          finishJob_store_mem (failState s c msg) c (some msg) j' hq2 hj' hctr'
        exact huniq j' hj2 hctr'
    intro j' hj' hctr'
    have he := hkey j' hj' hctr'
    rw [he]
    exact ⟨rfl, rfl, rfl, hj₀start⟩
  · intro hw
    rw [settleProcess_err_neg s c msg hw]
    exact List.mem_cons_of_mem _ (finishJob_caller_mem (failState s c msg) c msg)
  · intro hw hlt
    rw [settleProcess_err_neg s c msg hw]
    exact List.mem_cons_of_mem _
      (finishJob_started_mem (failState s c msg) c (some msg)
        (queue_cons s evs c h hc hlt))
  · intro hw
    rw [settleProcess_err_pos s c msg hw]
  · intro hw t d
    rw [settleProcess_err_pos s c msg hw]
    exact List.mem_cons_of_mem _ (finishJob_caller_mem _ c msg)
  · intro hw hlt t d
    rw [settleProcess_err_pos s c msg hw]
    exact List.mem_cons_of_mem _
      (finishJob_started_mem _ c (some msg) (queue_cons s evs c h hc hlt))

theorem failure_fields_witness :
    jobFailS2 ∈ (settleProcess (run actsS2).1 1 (Except.error "bad")).1.allJobs ∧
    jobFailS2.status = JobStatus.failed ∧ jobFailS2.error = some "bad" ∧
    jobFailS2.completedAt = some (run actsS2).1.now ∧
    Event.rejectedCaller 1 "bad" ∈ (settleProcess (run actsS2).1 1 (Except.error "bad")).2 ∧
    Event.started 2 ∈ (settleProcess (run actsS2).1 1 (Except.error "bad")).2 ∧
    (settleProcess (run actsS2W).1 1 (Except.error "bad")).1.cont =
      DrainCont.awaitingWebhook 1 (some "bad") ∧
    Event.rejectedCaller 1 "bad" ∈
      (step (settleProcess (run actsS2W).1 1 (Except.error "bad")).1
        (QueueAction.webhookSettle 0 true)).2 ∧
    Event.started 2 ∈
      (step (settleProcess (run actsS2W).1 1 (Except.error "bad")).1
        (QueueAction.webhookSettle 0 true)).2 := by
  have hN := failure_fields (run actsS2).1 (run actsS2).2 1 "bad"
    (run_inv actsS2) (by decide)
  have hW := failure_fields (run actsS2W).1 (run actsS2W).2 1 "bad"
    (run_inv actsS2W) (by decide)
  have hj := hN.1 jobFailS2 (by decide) (by decide)
  exact ⟨by decide, hj.1, hj.2.1, hj.2.2.1, hN.2.1 (by decide),
    hN.2.2.1 (by decide) (by decide), hW.2.2.2.1 (by decide),
    hW.2.2.2.2.1 (by decide) 0 true, hW.2.2.2.2.2 (by decide) (by decide) 0 true⟩

/-- C8: Retention trimming runs on the finish path after each terminal
transition and keeps only the 50 most recently completed terminal jobs,
ranked by `completedAt` descending: queued and processing jobs are never
counted or deleted, every deleted terminal job ranks no newer than every
terminal survivor, and a drained state reached after more than 50
submissions stores exactly 50 jobs, all terminal. -/
theorem retention_trim :
    (∀ s c err, (finishJob s c err).1 = (processNextJob (cleanupOldJobs { s with currentJob := none, isProcessing := false, cont := DrainCont.idle })).1) ∧
    (∀ jobs, List.Pairwise (fun a b => a.ctr < b.ctr) jobs →
      ((cleanupJobs jobs).filter fun j => isTerminal j.status).length =
        min ((jobs.filter fun j => isTerminal j.status).length) 50 ∧
      (∀ j ∈ jobs, isTerminal j.status = false → j ∈ cleanupJobs jobs) ∧
      (∀ j ∈ jobs, isTerminal j.status = true → j ∉ cleanupJobs jobs →
        ∀ j' ∈ cleanupJobs jobs, isTerminal j'.status = true →
          completedAtKey j ≤ completedAtKey j')) ∧
    (∀ acts, (run acts).1.cont = DrainCont.idle → 50 < (run acts).1.jobIdCounter →
      (run acts).1.jobQueue = [] ∧ (run acts).1.allJobs.length = 50 ∧
      ∀ j ∈ (run acts).1.allJobs, isTerminal j.status = true) := by
  refine ⟨fun s c err => rfl, ?_, ?_⟩
  · intro jobs hp
    exact ⟨cleanupJobs_terminal_count jobs hp,
      fun j hj hnt => cleanupJobs_keeps_nonterminal jobs hp j hj hnt,
      fun j hj ht hdel => cleanupJobs_ranking jobs hp j hj ht hdel⟩
  · intro acts hidle hgt
    have h := run_inv acts
    have hcc : contCtr (run acts).1 = (run acts).1.jobIdCounter := by
      unfold contCtr
      rw [hidle]
    have hterm : ∀ j ∈ (run acts).1.allJobs, isTerminal j.status = true := by
      intro j hj
      have hq := h.status_queued j hj
      rw [hcc] at hq
      have hb := h.ctrs_bounds j hj
      have hnq : j.status ≠ JobStatus.queued := by
        intro hqq
        have := hq.mp hqq
        omega
      have hnp : j.status ≠ JobStatus.processing := by
        intro hpp
        have := (h.status_processing j hj).mp hpp
        rw [hidle] at this
        exact DrainCont.noConfusion this
      cases hst : j.status with
      | queued => exact absurd hst hnq
      | processing => exact absurd hst hnp
      | completed => rfl
      | failed => rfl
    refine ⟨?_, ?_, hterm⟩
    · have hq := h.queue_eq
      rw [hcc] at hq
      rw [hq,
        show (run acts).1.jobIdCounter - (run acts).1.jobIdCounter = 0 from by omega]
      rfl
    · have hsc := h.store_count
      have hts : terminalStoreCount (run acts).1 = min (run acts).1.jobIdCounter 50 := by
        unfold terminalStoreCount
        rw [hidle]
      rw [hts] at hsc
      have hfe : (run acts).1.allJobs.filter (fun j => isTerminal j.status) =
          (run acts).1.allJobs := List.filter_eq_self.mpr hterm
      rw [hfe] at hsc
      rw [hsc]
      omega

set_option maxRecDepth 1000000 in
theorem retention_trim_witness :
    (run actsC8).1.cont = DrainCont.idle ∧ 50 < (run actsC8).1.jobIdCounter ∧
    (run actsC8).1.jobQueue = [] ∧ (run actsC8).1.allJobs.length = 50 := by
  have h1 : (run actsC8).1.cont = DrainCont.idle := by decide
  have h2 : 50 < (run actsC8).1.jobIdCounter := by decide
  exact ⟨h1, h2, (retention_trim.2.2 actsC8 h1 h2).1,
    (retention_trim.2.2 actsC8 h1 h2).2.1⟩

end ClarityQueue
